import Mathlib

/-!
Shallow embedding of the workflow execution engine of `src/app.py`
(Danielcreux/Video-nodo): the graph data model, the dependency resolver
(`build_input_map` / `resolve_input`), the topological scheduler
(`topo_sort`, Kahn's algorithm), the execution context with its log, and
the fail-fast executor loop (`execute_workflow`).

Values carried on ports are abstracted by a type parameter `V`; concrete
node handlers (media processing, file I/O) are external collaborators and
are modelled as an abstract registry `String → Option (Handler V)`
mirroring `NODE_RUNNERS.get`.
-/

namespace VideoNodo

/-- A directed link between ports, from `class PortLink` in `src/app.py`. -/
structure PortLink where
  from_node : String
  from_port : String
  to_node : String
  to_port : String
deriving DecidableEq

/-- A workflow node, from `class Node` in `src/app.py`.  The `position`
field is UI metadata never read by the engine and is omitted; `data` is the
handler-specific configuration, opaque to the engine. -/
structure Node (V : Type) where
  id : String
  type : String
  data : List (String × V) := []
deriving DecidableEq

/-- A workflow, from `class Workflow` in `src/app.py`. -/
structure Workflow (V : Type) where
  nodes : List (Node V)
  links : List PortLink
deriving DecidableEq

/-- One entry of the run log, as produced by `node_log` in `src/app.py`:
always `step`, `node`, `type`, `status`; `outputs` is set on "done"
entries and `error` on "error" entries (the `extra` dict in the source). -/
structure LogEntry (V : Type) where
  step : Nat
  node : String
  type : String
  status : String
  outputs : Option (List (String × V)) := none
  error : Option String := none
deriving DecidableEq

/-- Per-run mutable state, from `class ExecutionContext` in `src/app.py`. -/
structure ExecutionContext (V : Type) where
  outputs : List (String × List (String × V)) := []
  logs : List (LogEntry V) := []
  step : Nat := 0
deriving DecidableEq

/-- Python `dict.get` on an insertion-ordered association list. -/
def lookup {α : Type} (k : String) : List (String × α) → Option α
  | [] => none
  | (k', v) :: rest => if k = k' then some v else lookup k rest

/-- Python `d[k] = v` on an association list: overwrite the existing key in
place, else append at the end. -/
def dictInsert {α : Type} (k : String) (v : α) : List (String × α) → List (String × α)
  | [] => [(k, v)]
  | (k', v') :: rest => if k = k' then (k, v) :: rest else (k', v') :: dictInsert k v rest

/-- The `{"from_node": ..., "from_port": ...}` record stored in the
dependency map by `build_input_map`. -/
structure SrcRef where
  from_node : String
  from_port : String
deriving DecidableEq

/-- The dependency map `to_node → to_port → SrcRef`, modelled as a lookup
function. -/
def InputMap : Type := String → String → Option SrcRef

/-- `build_input_map` from `src/app.py`: fold over the links in
declaration order; a later link targeting the same `(to_node, to_port)`
overwrites an earlier one (Python dict assignment). -/
def build_input_map (links : List PortLink) : InputMap :=
  links.foldl
    (fun m l => fun tn tp =>
      if tn = l.to_node ∧ tp = l.to_port then some ⟨l.from_node, l.from_port⟩ else m tn tp)
    (fun _ _ => none)

/-- `resolve_input` from `src/app.py`: look up the map entry for
`(node_id, port)`; if none, return `none`; otherwise
`ctx.outputs.get(from_node, {}).get(from_port)`. -/
def resolve_input {V : Type} (node_id port : String) (input_map : InputMap)
    (ctx : ExecutionContext V) : Option V :=
  match input_map node_id port with
  | none => none
  | some src =>
    match lookup src.from_node ctx.outputs with
    | none => none
    | some ports => lookup src.from_port ports

/-- The value `ctx.outputs.get(n, {}).get(p)`: the captured output of node
`n` at port `p`, if present. -/
def outputValue {V : Type} (ctx : ExecutionContext V) (n p : String) : Option V :=
  match lookup n ctx.outputs with
  | none => none
  | some ports => lookup p ports

/-- `node_log` from `src/app.py`: increment the shared step counter and
append one entry. -/
def node_log {V : Type} (ctx : ExecutionContext V) (node : Node V) (status : String)
    (outs : Option (List (String × V)) := none) (err : Option String := none) :
    ExecutionContext V :=
  { ctx with
    step := ctx.step + 1,
    logs := ctx.logs ++
      [{ step := ctx.step + 1, node := node.id, type := node.type, status := status,
         outputs := outs, error := err }] }

/-! ### The scheduler (`topo_sort`) -/

/-- Key order of a Python dict comprehension over a list with possibly
repeated keys: distinct keys in first-occurrence order (as in
`nodes_by_id = \x7bn.id: n for n in workflow.nodes\x7d`).  `seen` carries
the keys already emitted. -/
def dedupFrom (seen : List String) : List String → List String
  | [] => []
  | k :: rest => if k ∈ seen then dedupFrom seen rest else k :: dedupFrom (seen ++ [k]) rest

/-- The key sequence of `nodes_by_id` / `indeg` / `adj` in `topo_sort`. -/
def nodeIds {V : Type} (nodes : List (Node V)) : List String :=
  dedupFrom [] (nodes.map Node.id)

/-- The links whose two endpoints are declared node ids — the only links
`topo_sort` turns into edges (`if link.from_node in nodes_by_id and
link.to_node in nodes_by_id`). -/
def validLinks {V : Type} (wf : Workflow V) : List PortLink :=
  wf.links.filter (fun l =>
    decide (l.from_node ∈ wf.nodes.map Node.id ∧ l.to_node ∈ wf.nodes.map Node.id))

/-- The initial in-degree of id `x`: the number of valid links into `x`. -/
def indeg0 {V : Type} (wf : Workflow V) (x : String) : Int :=
  (((validLinks wf).filter (fun l => decide (l.to_node = x))).length : Int)

/-- The adjacency list of id `x`: targets of valid links out of `x`, in
link declaration order. -/
def adjOf {V : Type} (wf : Workflow V) (x : String) : List String :=
  ((validLinks wf).filter (fun l => decide (l.from_node = x))).map PortLink.to_node

/-- The initial ready queue: in-degree-zero ids in declaration
(first-occurrence) order, as in `[nid for nid, d in indeg.items() if d == 0]`. -/
def seeds {V : Type} (wf : Workflow V) : List String :=
  (nodeIds wf.nodes).filter (fun x => decide (indeg0 wf x = 0))

/-- One iteration of the inner `for nxt in adj[nid]` body:
`indeg[nxt] -= 1; if indeg[nxt] == 0: q.append(nxt)`. -/
def processOne (nxt : String) (st : (String → Int) × List String) :
    (String → Int) × List String :=
  let d := st.1 nxt - 1
  (fun x => if x = nxt then d else st.1 x, if d = 0 then st.2 ++ [nxt] else st.2)

/-- The whole inner `for` loop over an adjacency list. -/
def processAdj (outs : List String) (st : (String → Int) × List String) :
    (String → Int) × List String :=
  outs.foldl (fun st nxt => processOne nxt st) st

/-- The `while q:` loop of `topo_sort`, with explicit fuel.  `kahnFuel`
below always exceeds the number of iterations the Python loop performs, so
the fuel never runs out on the states reachable from `topo_sort`. -/
def kahnLoop (adj : String → List String) :
    Nat → List String → (String → Int) → List String → List String
  | 0, _, _, ordered => ordered
  | fuel + 1, q, indeg, ordered =>
    match q with
    | [] => ordered
    | nid :: rest =>
      let st := processAdj (adj nid) (indeg, rest)
      kahnLoop adj fuel st.2 st.1 (ordered ++ [nid])

/-- Fuel bound for `kahnLoop`: total enqueues are at most one seed per node
plus one enqueue per link. -/
def kahnFuel {V : Type} (wf : Workflow V) : Nat :=
  wf.nodes.length + wf.links.length

/-- The id sequence `ordered` computed by `topo_sort`'s loop. -/
def kahnOrder {V : Type} (wf : Workflow V) : List String :=
  kahnLoop (adjOf wf) (kahnFuel wf) (seeds wf) (indeg0 wf) []

/-- The message of the `ValueError` raised by `topo_sort` (the spec's
`GraphError`). -/
def graphErrorMsg : String := "Grafo con ciclos o links inválidos. No se puede ejecutar."

/-- Python's `nodes_by_id[nid]`: the last declared node with id `nid`
(dict construction overwrites). -/
def nodeById {V : Type} (nodes : List (Node V)) (nid : String) : Option (Node V) :=
  nodes.reverse.find? (fun n => decide (n.id = nid))

/-- `topo_sort` from `src/app.py`: run Kahn's algorithm; if the resulting
order misses nodes, raise; else return the nodes in scheduled order. -/
def topo_sort {V : Type} (wf : Workflow V) : Except String (List (Node V)) :=
  let ordered := kahnOrder wf
  if ordered.length = wf.nodes.length then
    .ok (ordered.filterMap (fun nid => nodeById wf.nodes nid))
  else
    .error graphErrorMsg

/-! ### The executor (`execute_workflow`) -/

/-- A node handler: the abstract behavior behind `NODE_RUNNERS[...]`.  It
receives the node, the dependency map and the current context (the source
passes these in per-type argument shapes; handlers that take fewer simply
ignore the rest) and either returns an output-port map or fails with a
message. -/
def Handler (V : Type) : Type :=
  Node V → InputMap → ExecutionContext V → Except String (List (String × V))

/-- The handler registry, as consulted by `NODE_RUNNERS.get(node.type)`. -/
def Registry (V : Type) : Type := String → Option (Handler V)

/-- The message of the `ValueError` raised for an unregistered node type. -/
def unsupportedMsg (t : String) : String := "Nodo no soportado: " ++ t

/-- The `for node in ordered:` loop of `execute_workflow`.  On failure the
abandoned `ExecutionContext` is carried in the error so that the state at
the moment the Python exception propagates is observable; the caller-facing
result is `run_workflow_api` below, which drops it. -/
def runNodes {V : Type} (reg : Registry V) (input_map : InputMap) :
    List (Node V) → ExecutionContext V →
    Except (String × ExecutionContext V) (ExecutionContext V)
  | [], ctx => .ok ctx
  | node :: rest, ctx =>
    let ctx1 := node_log ctx node "running"
    match reg node.type with
    | none => .error (unsupportedMsg node.type, ctx1)
    | some runner =>
      match runner node input_map ctx1 with
      | .ok out =>
        let ctx2 := { ctx1 with outputs := dictInsert node.id out ctx1.outputs }
        runNodes reg input_map rest (node_log ctx2 node "done" (some out))
      | .error e =>
        .error (e, node_log ctx1 node "error" none (some e))

/-- The success result bundle of `execute_workflow` (the `workspace` field,
an absolute host path, is environment data and is omitted). -/
structure RunResult (V : Type) where
  ok : Bool
  outputs : List (String × List (String × V))
  logs : List (LogEntry V)
deriving DecidableEq

/-- `execute_workflow` from `src/app.py`: fresh context, build the
dependency map, schedule, then drive the node loop. -/
def execute_workflow {V : Type} (reg : Registry V) (wf : Workflow V) :
    Except (String × ExecutionContext V) (RunResult V) :=
  let ctx : ExecutionContext V := {}
  let input_map := build_input_map wf.links
  match topo_sort wf with
  | .error e => .error (e, ctx)
  | .ok ordered =>
    match runNodes reg input_map ordered ctx with
    | .error p => .error p
    | .ok ctx' => .ok ⟨true, ctx'.outputs, ctx'.logs⟩

/-- What the caller of the `/run` endpoint observes (`run_workflow_api`):
the result bundle on success, or only the exception's message on failure —
the context and its logs are not exposed. -/
def run_workflow_api {V : Type} (reg : Registry V) (wf : Workflow V) :
    Except String (RunResult V) :=
  match execute_workflow reg wf with
  | .error p => .error p.1
  | .ok r => .ok r

/-! ### Derived notions used by the verification -/

/-- `a` occurs strictly before `b` in `xs`: the formal reading of "the
index of `a` strictly precedes the index of `b`". -/
def Before (xs : List String) (a b : String) : Prop :=
  ∃ p m s, xs = p ++ a :: (m ++ b :: s)

/-- Number of occurrences of `v` in a list of ids. -/
def countOcc (v : String) (outs : List String) : Nat :=
  (outs.filter (fun x => decide (x = v))).length

/-- In-degree of `v` counting only valid links whose source has not yet
been scheduled. -/
def remIndeg {V : Type} (wf : Workflow V) (done : List String) (v : String) : Int :=
  (((validLinks wf).filter
    (fun l => decide (l.to_node = v ∧ l.from_node ∉ done))).length : Int)

/-- Sum of the nonnegative parts of `f` over a key list. -/
def sumToNat (ids : List String) (f : String → Int) : Nat :=
  (ids.map (fun v => (f v).toNat)).sum

/-- Invariant tying a `kahnLoop` state `(q, indeg, ordered)` to the
workflow. -/
structure KInv {V : Type} (wf : Workflow V) (q : List String)
    (indeg : String → Int) (ordered : List String) : Prop where
  nodup : (ordered ++ q).Nodup
  indeg_eq : ∀ v, indeg v = remIndeg wf ordered v
  sub_ord : ∀ v ∈ ordered, v ∈ nodeIds wf.nodes
  sub_q : ∀ v ∈ q, v ∈ nodeIds wf.nodes
  ord_before : ∀ l ∈ validLinks wf, l.to_node ∈ ordered →
    Before ordered l.from_node l.to_node
  q_zero : ∀ v ∈ q, remIndeg wf ordered v = 0
  pending_pos : ∀ v ∈ nodeIds wf.nodes, v ∉ ordered → v ∉ q →
    1 ≤ remIndeg wf ordered v

/-- What survives of the invariant when the loop has drained its queue. -/
structure KFinal {V : Type} (wf : Workflow V) (final : List String) : Prop where
  nodup : final.Nodup
  sub : ∀ v ∈ final, v ∈ nodeIds wf.nodes
  linearizes : ∀ l ∈ validLinks wf, l.to_node ∈ final →
    Before final l.from_node l.to_node
  missing_pos : ∀ v ∈ nodeIds wf.nodes, v ∉ final → 1 ≤ remIndeg wf final v

/-- The edge relation of the ordering graph: some valid link goes
`a → b`. -/
def EdgeRel {V : Type} (wf : Workflow V) (a b : String) : Prop :=
  ∃ l ∈ validLinks wf, l.from_node = a ∧ l.to_node = b

/-- The valid edges form no cycle. -/
def Acyclic {V : Type} (wf : Workflow V) : Prop :=
  ∀ x, ¬ Relation.TransGen (EdgeRel wf) x x

/-- Where the pair `(u, v)` stands relative to a loop state: both still
queued with `u` ahead, or `u` scheduled and `v` still queued, or both
scheduled in order. -/
def TieState (u v : String) (q ordered : List String) : Prop :=
  (Before q u v ∧ u ∉ ordered ∧ v ∉ ordered) ∨
  (u ∈ ordered ∧ v ∈ q ∧ v ∉ ordered) ∨
  Before ordered u v

/-! ### Concrete material used by the witnesses -/

def exA : Node Nat := { id := "a", type := "T" }

def exB : Node Nat := { id := "b", type := "T" }

def exC : Node Nat := { id := "c", type := "U" }

def exLinkAB : PortLink := ⟨"a", "o", "b", "i"⟩

def exLinkBA : PortLink := ⟨"b", "o", "a", "i"⟩

def exReg : Registry Nat := fun t =>
  if t = "T" then some (fun _ _ _ => .ok [("o", 5)]) else none

def exRegCopy : Registry Nat := fun t =>
  if t = "T" then some (fun _ _ _ => .ok [("o", 5)]) else none

/-- Registry whose `"U"` handler fails with `"boom"`. -/
def exRegFail : Registry Nat := fun t =>
  if t = "T" then some (fun _ _ _ => .ok [("o", 5)])
  else if t = "U" then some (fun _ _ _ => .error "boom") else none

/-- The context after the node `a` of the witness graphs has completed. -/
def exCtxPre : ExecutionContext Nat :=
  { outputs := [("a", [("o", 5)])],
    logs := [⟨1, "a", "T", "running", none, none⟩,
             ⟨2, "a", "T", "done", some [("o", 5)], none⟩],
    step := 2 }

/-! ### Order of appearance in a list -/

theorem Before.append_right {xs ys : List String} {a b : String}
    (h : Before xs a b) : Before (xs ++ ys) a b := by
  obtain ⟨p, m, s, rfl⟩ := h
  exact ⟨p, m, s ++ ys, by simp⟩

theorem Before.mk_append {xs : List String} {a b : String}
    (h : a ∈ xs) : Before (xs ++ [b]) a b := by
  obtain ⟨p, s, rfl⟩ := List.append_of_mem h
  exact ⟨p, s, [], by simp⟩

theorem Before.mem_left {xs : List String} {a b : String}
    (h : Before xs a b) : a ∈ xs := by
  obtain ⟨p, m, s, rfl⟩ := h
  simp

theorem Before.mem_right {xs : List String} {a b : String}
    (h : Before xs a b) : b ∈ xs := by
  obtain ⟨p, m, s, rfl⟩ := h
  simp

theorem before_cons {h : String} {t : List String} {a b : String}
    (hb : Before (h :: t) a b) : (h = a ∧ b ∈ t) ∨ Before t a b := by
  obtain ⟨p, m, s, he⟩ := hb
  cases p with
  | nil =>
    simp only [List.nil_append, List.cons.injEq] at he
    exact Or.inl ⟨he.1, by rw [he.2]; simp⟩
  | cons x p' =>
    simp only [List.cons_append, List.cons.injEq] at he
    exact Or.inr ⟨p', m, s, he.2⟩

theorem Before.ne {xs : List String} {a b : String}
    (h : Before xs a b) (hnd : xs.Nodup) : a ≠ b := by
  obtain ⟨p, m, s, rfl⟩ := h
  intro hab
  subst hab
  have h2 : (a :: (m ++ a :: s)).Nodup := hnd.of_append_right
  rw [List.nodup_cons] at h2
  exact h2.1 (by simp)

theorem Before.filter {xs : List String} {a b : String} (pred : String → Bool)
    (h : Before xs a b) (ha : pred a = true) (hb : pred b = true) :
    Before (xs.filter pred) a b := by
  obtain ⟨p, m, s, rfl⟩ := h
  refine ⟨p.filter pred, m.filter pred, s.filter pred, ?_⟩
  simp [List.filter_append, List.filter_cons, ha, hb]

/-! ### Facts about `dedupFrom` / `nodeIds` -/

theorem mem_dedupFrom {x : String} : ∀ (seen l : List String),
    (x ∈ dedupFrom seen l ↔ x ∈ l ∧ x ∉ seen)
  | seen, [] => by simp [dedupFrom]
  | seen, k :: rest => by
    by_cases hk : k ∈ seen
    · rw [dedupFrom, if_pos hk, mem_dedupFrom seen rest]
      constructor
      · exact fun ⟨h1, h2⟩ => ⟨List.mem_cons_of_mem k h1, h2⟩
      · rintro ⟨h1, h2⟩
        rcases List.mem_cons.mp h1 with rfl | h1
        · exact absurd hk h2
        · exact ⟨h1, h2⟩
    · rw [dedupFrom, if_neg hk]
      by_cases hx : x = k
      · subst hx
        simp [hk]
      · simp only [List.mem_cons, hx, false_or]
        rw [mem_dedupFrom (seen ++ [k]) rest]
        simp [hx]

theorem dedupFrom_nodup : ∀ (seen l : List String), (dedupFrom seen l).Nodup
  | seen, [] => by simp [dedupFrom]
  | seen, k :: rest => by
    by_cases hk : k ∈ seen
    · rw [dedupFrom, if_pos hk]
      exact dedupFrom_nodup seen rest
    · rw [dedupFrom, if_neg hk]
      refine List.nodup_cons.mpr ⟨?_, dedupFrom_nodup (seen ++ [k]) rest⟩
      intro hmem
      exact (mem_dedupFrom _ _).mp hmem |>.2 (by simp)

theorem dedupFrom_length_le : ∀ (seen l : List String),
    (dedupFrom seen l).length ≤ l.length
  | seen, [] => by simp [dedupFrom]
  | seen, k :: rest => by
    by_cases hk : k ∈ seen
    · rw [dedupFrom, if_pos hk]
      exact Nat.le_succ_of_le (dedupFrom_length_le seen rest)
    · rw [dedupFrom, if_neg hk]
      simpa using Nat.succ_le_succ (dedupFrom_length_le (seen ++ [k]) rest)

theorem dedupFrom_length_lt_of_seen : ∀ (seen l : List String),
    (∃ x ∈ l, x ∈ seen) → (dedupFrom seen l).length < l.length
  | seen, [], h => by simp at h
  | seen, k :: rest, h => by
    by_cases hk : k ∈ seen
    · rw [dedupFrom, if_pos hk]
      exact Nat.lt_succ_of_le (dedupFrom_length_le seen rest)
    · rw [dedupFrom, if_neg hk]
      obtain ⟨x, hx, hxs⟩ := h
      rcases List.mem_cons.mp hx with rfl | hx
      · exact absurd hxs hk
      · have : (dedupFrom (seen ++ [k]) rest).length < rest.length :=
          dedupFrom_length_lt_of_seen (seen ++ [k]) rest ⟨x, hx, by simp [hxs]⟩
        simpa using Nat.succ_lt_succ this

theorem dedupFrom_length_lt_of_not_nodup : ∀ (seen l : List String),
    ¬ l.Nodup → (dedupFrom seen l).length < l.length
  | seen, [], h => absurd List.nodup_nil h
  | seen, k :: rest, h => by
    by_cases hk : k ∈ seen
    · rw [dedupFrom, if_pos hk]
      exact Nat.lt_succ_of_le (dedupFrom_length_le seen rest)
    · rw [dedupFrom, if_neg hk]
      rw [List.nodup_cons] at h
      push_neg at h
      by_cases hkr : k ∈ rest
      · have : (dedupFrom (seen ++ [k]) rest).length < rest.length :=
          dedupFrom_length_lt_of_seen (seen ++ [k]) rest ⟨k, hkr, by simp⟩
        simpa using Nat.succ_lt_succ this
      · have : ¬ rest.Nodup := h hkr
        have := dedupFrom_length_lt_of_not_nodup (seen ++ [k]) rest this
        simpa using Nat.succ_lt_succ this

theorem dedupFrom_eq_self : ∀ (seen l : List String), l.Nodup →
    (∀ x ∈ l, x ∉ seen) → dedupFrom seen l = l
  | seen, [], _, _ => rfl
  | seen, k :: rest, hnd, hs => by
    rw [dedupFrom, if_neg (hs k (by simp))]
    rw [List.nodup_cons] at hnd
    congr 1
    refine dedupFrom_eq_self (seen ++ [k]) rest hnd.2 (fun x hx => ?_)
    simp only [List.mem_append, List.mem_singleton]
    rintro (hxs | rfl)
    · exact hs x (List.mem_cons_of_mem k hx) hxs
    · exact hnd.1 hx

theorem nodeIds_nodup {V : Type} (nodes : List (Node V)) : (nodeIds nodes).Nodup :=
  dedupFrom_nodup [] _

theorem mem_nodeIds {V : Type} {nodes : List (Node V)} {x : String} :
    x ∈ nodeIds nodes ↔ x ∈ nodes.map Node.id := by
  rw [nodeIds, mem_dedupFrom]
  simp

theorem nodeIds_eq_of_nodup {V : Type} {nodes : List (Node V)}
    (h : (nodes.map Node.id).Nodup) : nodeIds nodes = nodes.map Node.id :=
  dedupFrom_eq_self [] _ h (by simp)

/-! ### Counting occurrences and remaining in-degrees -/

theorem countOcc_nil (v : String) : countOcc v [] = 0 := rfl

theorem countOcc_cons (v o : String) (rest : List String) :
    countOcc v (o :: rest) = countOcc v rest + (if o = v then 1 else 0) := by
  by_cases h : o = v <;> simp [countOcc, List.filter_cons, h]

theorem countOcc_pos_mem {v : String} {outs : List String}
    (h : 1 ≤ countOcc v outs) : v ∈ outs := by
  unfold countOcc at h
  have hne : outs.filter (fun x => decide (x = v)) ≠ [] := by
    intro he
    rw [he] at h
    simp at h
  obtain ⟨x, hx⟩ := List.exists_mem_of_ne_nil _ hne
  have h2 := List.mem_filter.mp hx
  simp only [decide_eq_true_eq] at h2
  rw [← h2.2]
  exact h2.1

theorem remIndeg_nonneg {V : Type} (wf : Workflow V) (done : List String) (v : String) :
    0 ≤ remIndeg wf done v :=
  Int.natCast_nonneg _

theorem indeg0_eq_remIndeg_nil {V : Type} (wf : Workflow V) (v : String) :
    indeg0 wf v = remIndeg wf [] v := by
  unfold indeg0 remIndeg
  congr 2
  apply List.filter_congr
  intro l _
  simp

theorem remIndeg_eq_zero_iff {V : Type} (wf : Workflow V) (done : List String) (v : String) :
    remIndeg wf done v = 0 ↔
      ∀ l ∈ validLinks wf, l.to_node = v → l.from_node ∈ done := by
  unfold remIndeg
  rw [Int.natCast_eq_zero, List.length_eq_zero, List.filter_eq_nil_iff]
  constructor
  · intro h l hl hv
    by_contra hnd
    exact h l hl (by simp [hv, hnd])
  · intro h l hl
    simp only [decide_eq_true_eq, not_and, not_not]
    intro hv
    exact h l hl hv

/-- Split the length of a filter by a second predicate. -/
theorem length_filter_split {α : Type} (p q : α → Bool) (l : List α) :
    (l.filter p).length =
      (l.filter (fun x => p x && q x)).length +
      (l.filter (fun x => p x && !q x)).length := by
  induction l with
  | nil => rfl
  | cons a t ih =>
    cases hp : p a <;> cases hq : q a <;>
      simp [List.filter_cons, hp, hq, ih] <;> omega

/-- Length as the sum of a filter and its complement. -/
theorem length_eq_filter_add_not {α : Type} (q : α → Bool) (l : List α) :
    l.length = (l.filter q).length + (l.filter (fun x => !q x)).length := by
  induction l with
  | nil => rfl
  | cons a t ih =>
    cases hq : q a <;> simp [List.filter_cons, hq, ih] <;> omega

/-- `countOcc` over the adjacency list of `nid` counts the valid links
`nid → v`. -/
theorem countOcc_adjOf {V : Type} (wf : Workflow V) (nid v : String) :
    countOcc v (adjOf wf nid) =
      ((validLinks wf).filter
        (fun l => decide (l.to_node = v ∧ l.from_node = nid))).length := by
  unfold adjOf countOcc
  generalize validLinks wf = L
  induction L with
  | nil => rfl
  | cons l t ih =>
    by_cases hf : l.from_node = nid
    · by_cases ht : l.to_node = v
      · simp [List.filter_cons, hf, ht, ih]
      · simp [List.filter_cons, hf, ht, ih]
    · simp [List.filter_cons, hf, ih]

/-- Targets of adjacency lists are declared node ids. -/
theorem adjOf_subset {V : Type} (wf : Workflow V) (nid : String) :
    ∀ v ∈ adjOf wf nid, v ∈ nodeIds wf.nodes := by
  intro v hv
  unfold adjOf at hv
  obtain ⟨l, hl, rfl⟩ := List.mem_map.mp hv
  have h1 := List.mem_filter.mp hl
  have h2 := List.mem_filter.mp h1.1
  rw [mem_nodeIds]
  exact (of_decide_eq_true h2.2).2

/-- Sources and targets of valid links are declared node ids. -/
theorem validLinks_mem_ids {V : Type} (wf : Workflow V) :
    ∀ l ∈ validLinks wf,
      l.from_node ∈ nodeIds wf.nodes ∧ l.to_node ∈ nodeIds wf.nodes := by
  intro l hl
  have h := List.mem_filter.mp hl
  have h2 := of_decide_eq_true h.2
  exact ⟨mem_nodeIds.mpr h2.1, mem_nodeIds.mpr h2.2⟩

/-- Scheduling one more node subtracts its outgoing edge multiplicities
from the remaining in-degrees. -/
theorem remIndeg_append {V : Type} (wf : Workflow V) (done : List String)
    (nid : String) (hnid : nid ∉ done) (v : String) :
    remIndeg wf (done ++ [nid]) v =
      remIndeg wf done v - (countOcc v (adjOf wf nid) : Int) := by
  rw [countOcc_adjOf]
  unfold remIndeg
  have hsplit := length_filter_split
    (fun l => decide (l.to_node = v ∧ l.from_node ∉ done))
    (fun l => decide (l.from_node = nid)) (validLinks wf)
  have e1 : (validLinks wf).filter
      (fun l => decide (l.to_node = v ∧ l.from_node ∉ done) &&
        decide (l.from_node = nid))
      = (validLinks wf).filter
          (fun l => decide (l.to_node = v ∧ l.from_node = nid)) := by
    apply List.filter_congr
    intro l _
    by_cases h1 : l.to_node = v <;> by_cases h2 : l.from_node = nid <;>
      simp [h1, h2, hnid]
  have e2 : (validLinks wf).filter
      (fun l => decide (l.to_node = v ∧ l.from_node ∉ done) &&
        !decide (l.from_node = nid))
      = (validLinks wf).filter
          (fun l => decide (l.to_node = v ∧ l.from_node ∉ done ++ [nid])) := by
    apply List.filter_congr
    intro l _
    by_cases h1 : l.to_node = v <;> by_cases h2 : l.from_node = nid <;>
      by_cases h3 : l.from_node ∈ done <;> simp [h1, h2, h3]
  rw [e1, e2] at hsplit
  omega

/-! ### Sums of truncated in-degrees (the loop potential) -/

theorem sumToNat_update (ids : List String) (hnd : ids.Nodup) (f : String → Int)
    (o : String) (d : Int) (ho : o ∈ ids) :
    sumToNat ids (fun x => if x = o then d else f x) + (f o).toNat
      = sumToNat ids f + d.toNat := by
  induction ids with
  | nil => simp at ho
  | cons k t ih =>
    rw [List.nodup_cons] at hnd
    rcases List.mem_cons.mp ho with rfl | hot
    · have hmap : t.map (fun v => (if v = o then d else f v).toNat)
          = t.map (fun v => (f v).toNat) := by
        apply List.map_congr_left
        intro x hx
        have hxo : ¬ x = o := fun he => hnd.1 (by rw [← he]; exact hx)
        rw [if_neg hxo]
      simp only [sumToNat, List.map_cons, List.sum_cons, hmap]
      rw [if_pos trivial]
      omega
    · have hko : ¬ k = o := fun he => hnd.1 (by rw [he]; exact hot)
      have hk : (if k = o then d else f k) = f k := if_neg hko
      have h2 := ih hnd.2 hot
      simp only [sumToNat, List.map_cons, List.sum_cons, hk] at h2 ⊢
      omega

/-- Over a covering Nodup key list, the per-key filter lengths sum to the
whole length. -/
theorem sum_filter_lengths : ∀ (keys : List String) (E : List PortLink),
    keys.Nodup → (∀ l ∈ E, l.to_node ∈ keys) →
    (keys.map (fun v =>
      (E.filter (fun l => decide (l.to_node = v))).length)).sum = E.length
  | [], E, _, hcov => by
    have : E = [] := List.eq_nil_iff_forall_not_mem.mpr
      (fun l hl => by simpa using hcov l hl)
    simp [this]
  | k :: ks, E, hnd, hcov => by
    rw [List.nodup_cons] at hnd
    have hsplit := length_eq_filter_add_not
      (fun l => decide (l.to_node = k)) E
    have hmap : ks.map (fun v =>
        (E.filter (fun l => decide (l.to_node = v))).length)
        = ks.map (fun v =>
          ((E.filter (fun l => !decide (l.to_node = k))).filter
            (fun l => decide (l.to_node = v))).length) := by
      apply List.map_congr_left
      intro v hv
      congr 1
      rw [List.filter_filter]
      apply List.filter_congr
      intro l _
      by_cases h1 : l.to_node = v
      · have hvk : ¬ v = k := fun he => hnd.1 (he ▸ hv)
        simp [h1, hvk]
      · simp [h1]
    have hcov2 : ∀ l ∈ E.filter (fun l => !decide (l.to_node = k)),
        l.to_node ∈ ks := by
      intro l hl
      have h := List.mem_filter.mp hl
      have h2 : ¬ (l.to_node = k) := by simpa using h.2
      rcases List.mem_cons.mp (hcov l h.1) with he | hks
      · exact absurd he h2
      · exact hks
    have ih := sum_filter_lengths ks
      (E.filter (fun l => !decide (l.to_node = k))) hnd.2 hcov2
    simp only [List.map_cons, List.sum_cons, hmap, ih]
    omega

/-- The total initial in-degree equals the number of valid links. -/
theorem sumToNat_indeg0 {V : Type} (wf : Workflow V) :
    sumToNat (nodeIds wf.nodes) (indeg0 wf) = (validLinks wf).length := by
  have hcov : ∀ l ∈ validLinks wf, l.to_node ∈ nodeIds wf.nodes :=
    fun l hl => (validLinks_mem_ids wf l hl).2
  have h := sum_filter_lengths (nodeIds wf.nodes) (validLinks wf)
    (nodeIds_nodup _) hcov
  rw [← h]
  unfold sumToNat indeg0
  exact congrArg List.sum (List.map_congr_left (fun v _ => Int.toNat_natCast _))

/-! ### Characterization of the inner loop (`processAdj`) -/

theorem processAdj_cons (o : String) (rest : List String)
    (st : (String → Int) × List String) :
    processAdj (o :: rest) st = processAdj rest (processOne o st) := rfl

theorem processAdj_fst : ∀ (outs : List String) (indeg : String → Int)
    (q : List String) (v : String),
    (processAdj outs (indeg, q)).1 v = indeg v - (countOcc v outs : Int)
  | [], indeg, q, v => by simp [processAdj, countOcc_nil]
  | o :: rest, indeg, q, v => by
    rw [processAdj_cons]
    have hpair : processOne o (indeg, q)
        = (fun x => if x = o then indeg o - 1 else indeg x,
           if indeg o - 1 = 0 then q ++ [o] else q) := rfl
    rw [hpair, processAdj_fst rest _ _ v, countOcc_cons]
    by_cases hv : v = o
    · rw [if_pos hv, hv, if_pos rfl]
      push_cast
      omega
    · rw [if_neg hv, if_neg (fun he => hv he.symm)]
      push_cast
      omega

theorem processAdj_snd : ∀ (outs : List String) (indeg : String → Int)
    (q : List String),
    ∃ extra, (processAdj outs (indeg, q)).2 = q ++ extra ∧ extra.Nodup ∧
      (∀ v ∈ extra, v ∈ outs ∧ 1 ≤ indeg v ∧ indeg v ≤ (countOcc v outs : Int)) ∧
      (∀ v ∈ outs, 1 ≤ indeg v → indeg v ≤ (countOcc v outs : Int) → v ∈ extra)
  | [], indeg, q => ⟨[], by simp [processAdj], List.nodup_nil,
      fun v hv => absurd hv (List.not_mem_nil v),
      fun v hv => absurd hv (List.not_mem_nil v)⟩
  | o :: rest, indeg, q => by
    rw [processAdj_cons]
    by_cases hd : indeg o - 1 = 0
    · have hpair : processOne o (indeg, q)
          = (fun x => if x = o then indeg o - 1 else indeg x,
             if indeg o - 1 = 0 then q ++ [o] else q) := rfl
      rw [hpair, if_pos hd]
      obtain ⟨extra, hq, hnd, hmem, hconv⟩ :=
        processAdj_snd rest (fun x => if x = o then indeg o - 1 else indeg x) (q ++ [o])
      refine ⟨o :: extra, by rw [hq]; simp, ?_, ?_, ?_⟩
      · refine List.nodup_cons.mpr ⟨fun ho => ?_, hnd⟩
        have := (hmem o ho).2.1
        rw [if_pos rfl] at this
        omega
      · intro v hv
        rcases List.mem_cons.mp hv with rfl | hv
        · refine ⟨by simp, by omega, ?_⟩
          rw [countOcc_cons, if_pos rfl]
          push_cast
          omega
        · obtain ⟨hv1, hv2, hv3⟩ := hmem v hv
          have hvo : ¬ v = o := by
            intro he
            rw [if_pos he] at hv2
            omega
          rw [if_neg hvo] at hv2 hv3
          refine ⟨List.mem_cons_of_mem o hv1, hv2, ?_⟩
          rw [countOcc_cons]
          by_cases he : o = v <;> push_cast <;> omega
      · intro v hv h1 h2
        rcases List.mem_cons.mp hv with rfl | hv
        · exact List.mem_cons_self _ _
        · by_cases hvo : v = o
          · subst hvo
            exact List.mem_cons_self _ _
          · refine List.mem_cons_of_mem o (hconv v hv ?_ ?_)
            · rw [if_neg hvo]
              exact h1
            · rw [if_neg hvo]
              rw [countOcc_cons, if_neg (fun he => hvo he.symm)] at h2
              push_cast at h2 ⊢
              omega
    · have hpair : processOne o (indeg, q)
          = (fun x => if x = o then indeg o - 1 else indeg x,
             if indeg o - 1 = 0 then q ++ [o] else q) := rfl
      rw [hpair, if_neg hd]
      obtain ⟨extra, hq, hnd, hmem, hconv⟩ :=
        processAdj_snd rest (fun x => if x = o then indeg o - 1 else indeg x) q
      refine ⟨extra, hq, hnd, ?_, ?_⟩
      · intro v hv
        obtain ⟨hv1, hv2, hv3⟩ := hmem v hv
        refine ⟨List.mem_cons_of_mem o hv1, ?_, ?_⟩
        · by_cases hvo : v = o
          · rw [if_pos hvo] at hv2
            rw [hvo]
            omega
          · rw [if_neg hvo] at hv2
            exact hv2
        · rw [countOcc_cons]
          by_cases hvo : v = o
          · rw [if_pos hvo] at hv3
            rw [hvo] at hv3 ⊢
            rw [if_pos rfl]
            push_cast at hv3 ⊢
            omega
          · rw [if_neg hvo] at hv3
            by_cases he : o = v
            · exact absurd he.symm hvo
            · rw [if_neg he]
              push_cast at hv3 ⊢
              omega
      · intro v hv h1 h2
        by_cases hvo : v = o
        · have hco : countOcc v (o :: rest) = countOcc v rest + 1 := by
            rw [countOcc_cons, if_pos hvo.symm]
          have hio : ¬ (indeg v - 1 = 0) := by
            rw [hvo]
            exact hd
          have h4 : 1 ≤ indeg v - 1 := by omega
          rw [hco] at h2
          push_cast at h2
          have h5 : indeg v - 1 ≤ (countOcc v rest : Int) := by omega
          have h6 : (1 : Int) ≤ (countOcc v rest : Int) := le_trans h4 h5
          have h7 : 1 ≤ countOcc v rest := by exact_mod_cast h6
          refine hconv v (countOcc_pos_mem h7) ?_ ?_
          · rw [if_pos hvo, ← hvo]
            exact h4
          · rw [if_pos hvo, ← hvo]
            exact h5
        · have hvrest : v ∈ rest := by
            rcases List.mem_cons.mp hv with he | h
            · exact absurd he hvo
            · exact h
          refine hconv v hvrest ?_ ?_
          · rw [if_neg hvo]
            exact h1
          · rw [if_neg hvo]
            rw [countOcc_cons, if_neg (fun he => hvo he.symm)] at h2
            push_cast at h2 ⊢
            omega

/-- Each inner-loop pass can only lower the loop potential
(queue length plus total truncated in-degree). -/
theorem processAdj_pot : ∀ (outs : List String) (indeg : String → Int)
    (q : List String) (ids : List String), ids.Nodup → (∀ v ∈ outs, v ∈ ids) →
    (processAdj outs (indeg, q)).2.length
      + sumToNat ids (processAdj outs (indeg, q)).1
      ≤ q.length + sumToNat ids indeg
  | [], indeg, q, ids, _, _ => by simp [processAdj]
  | o :: rest, indeg, q, ids, hnd, houts => by
    rw [processAdj_cons]
    have hpair : processOne o (indeg, q)
        = (fun x => if x = o then indeg o - 1 else indeg x,
           if indeg o - 1 = 0 then q ++ [o] else q) := rfl
    rw [hpair]
    have ho : o ∈ ids := houts o (by simp)
    have hupd := sumToNat_update ids hnd indeg o (indeg o - 1) ho
    have hstep : (if indeg o - 1 = 0 then q ++ [o] else q).length
        + sumToNat ids (fun x => if x = o then indeg o - 1 else indeg x)
        ≤ q.length + 1 + sumToNat ids indeg - 1 := by
      by_cases hd : indeg o - 1 = 0
      · rw [if_pos hd]
        simp only [List.length_append, List.length_singleton]
        omega
      · rw [if_neg hd]
        omega
    have hrec := processAdj_pot rest
      (fun x => if x = o then indeg o - 1 else indeg x)
      (if indeg o - 1 = 0 then q ++ [o] else q) ids hnd
      (fun v hv => houts v (List.mem_cons_of_mem o hv))
    omega

/-! ### The loop invariant of Kahn's algorithm -/

/-- Scheduled nodes have no remaining unscheduled predecessors. -/
theorem KInv.done_zero {V : Type} {wf : Workflow V} {q : List String}
    {indeg : String → Int} {ordered : List String}
    (hinv : KInv wf q indeg ordered) :
    ∀ v ∈ ordered, remIndeg wf ordered v = 0 := by
  intro v hv
  rw [remIndeg_eq_zero_iff]
  intro l hl hto
  exact (hinv.ord_before l hl (by rw [hto]; exact hv)).mem_left

/-- The invariant holds at the loop entry. -/
theorem KInv_init {V : Type} (wf : Workflow V) :
    KInv wf (seeds wf) (indeg0 wf) [] := by
  refine ⟨?_, ?_, ?_, ?_, ?_, ?_, ?_⟩
  · simpa using (nodeIds_nodup wf.nodes).filter _
  · intro v
    exact indeg0_eq_remIndeg_nil wf v
  · intro v hv
    exact absurd hv (List.not_mem_nil v)
  · intro v hv
    exact (List.mem_filter.mp hv).1
  · intro l hl hto
    exact absurd hto (List.not_mem_nil _)
  · intro v hv
    have h := List.mem_filter.mp hv
    rw [← indeg0_eq_remIndeg_nil]
    simpa using h.2
  · intro v hv h1 h2
    rw [← indeg0_eq_remIndeg_nil]
    have hne : ¬ (indeg0 wf v = 0) := by
      intro h0
      exact h2 (List.mem_filter.mpr ⟨hv, by simpa using h0⟩)
    have hge : 0 ≤ indeg0 wf v := Int.natCast_nonneg _
    omega

/-- One `while` iteration preserves the invariant. -/
theorem KInv_step {V : Type} (wf : Workflow V) (nid : String) (rest : List String)
    (indeg : String → Int) (ordered : List String)
    (hinv : KInv wf (nid :: rest) indeg ordered) :
    KInv wf (processAdj (adjOf wf nid) (indeg, rest)).2
      (processAdj (adjOf wf nid) (indeg, rest)).1 (ordered ++ [nid]) := by
  obtain ⟨extra, hq2, hndx, hmem, hconv⟩ := processAdj_snd (adjOf wf nid) indeg rest
  have hfst := processAdj_fst (adjOf wf nid) indeg rest
  have hnidq : nid ∈ nid :: rest := by simp
  have hnido : nid ∉ ordered := by
    have h := List.nodup_append.mp hinv.nodup
    exact fun hx => h.2.2 hx hnidq
  have hrem : ∀ v, remIndeg wf (ordered ++ [nid]) v
      = remIndeg wf ordered v - (countOcc v (adjOf wf nid) : Int) :=
    remIndeg_append wf ordered nid hnido
  have hindeg2 : ∀ v, (processAdj (adjOf wf nid) (indeg, rest)).1 v
      = remIndeg wf (ordered ++ [nid]) v := by
    intro v
    rw [hfst v, hinv.indeg_eq v, hrem v]
  have hfresh : ∀ v ∈ extra, v ∉ ordered ∧ v ∉ nid :: rest := by
    intro v hv
    have h1 : 1 ≤ indeg v := (hmem v hv).2.1
    constructor
    · intro hvo
      have h0 := hinv.done_zero v hvo
      rw [hinv.indeg_eq v, h0] at h1
      omega
    · intro hvq
      have h0 := hinv.q_zero v hvq
      rw [hinv.indeg_eq v, h0] at h1
      omega
  refine ⟨?_, hindeg2, ?_, ?_, ?_, ?_, ?_⟩
  · rw [hq2, ← List.append_assoc, List.nodup_append]
    refine ⟨?_, hndx, ?_⟩
    · rw [List.append_assoc, List.singleton_append]
      exact hinv.nodup
    · intro a ha hax
      obtain ⟨hf1, hf2⟩ := hfresh a hax
      rcases List.mem_append.mp ha with h | h
      · rcases List.mem_append.mp h with h | h
        · exact hf1 h
        · exact hf2 (by rw [List.mem_singleton.mp h]; exact hnidq)
      · exact hf2 (List.mem_cons_of_mem nid h)
  · intro v hv
    rcases List.mem_append.mp hv with h | h
    · exact hinv.sub_ord v h
    · rw [List.mem_singleton.mp h]
      exact hinv.sub_q nid hnidq
  · rw [hq2]
    intro v hv
    rcases List.mem_append.mp hv with h | h
    · exact hinv.sub_q v (List.mem_cons_of_mem nid h)
    · exact adjOf_subset wf nid v (hmem v h).1
  · intro l hl hto
    rcases List.mem_append.mp hto with h | h
    · exact (hinv.ord_before l hl h).append_right
    · have hton : l.to_node = nid := List.mem_singleton.mp h
      have h0 := hinv.q_zero nid hnidq
      rw [remIndeg_eq_zero_iff] at h0
      have hfrom : l.from_node ∈ ordered := h0 l hl hton
      rw [hton]
      exact Before.mk_append hfrom
  · rw [hq2]
    intro v hv
    have hnn : 0 ≤ remIndeg wf (ordered ++ [nid]) v := remIndeg_nonneg wf _ v
    rcases List.mem_append.mp hv with h | h
    · have h0 := hinv.q_zero v (List.mem_cons_of_mem nid h)
      rw [hrem v, h0]
      have : (0 : Int) ≤ (countOcc v (adjOf wf nid) : Int) := Int.natCast_nonneg _
      rw [hrem v, h0] at hnn
      omega
    · obtain ⟨-, h1, h2⟩ := hmem v h
      rw [hinv.indeg_eq v] at h2
      rw [hrem v]
      rw [hrem v] at hnn
      omega
  · intro v hvids hv1 hv2
    rw [hq2] at hv2
    have hvo : v ∉ ordered := fun h => hv1 (List.mem_append.mpr (Or.inl h))
    have hvn : ¬ v = nid := fun h =>
      hv1 (List.mem_append.mpr (Or.inr (by rw [h]; simp)))
    have hvr : v ∉ rest := fun h => hv2 (List.mem_append.mpr (Or.inl h))
    have hvx : v ∉ extra := fun h => hv2 (List.mem_append.mpr (Or.inr h))
    have hold : 1 ≤ remIndeg wf ordered v :=
      hinv.pending_pos v hvids hvo (by
        intro h
        rcases List.mem_cons.mp h with h | h
        · exact hvn h
        · exact hvr h)
    have hnn : 0 ≤ remIndeg wf (ordered ++ [nid]) v := remIndeg_nonneg wf _ v
    rw [hrem v] at hnn ⊢
    by_contra hc
    push_neg at hc
    have hle : indeg v ≤ (countOcc v (adjOf wf nid) : Int) := by
      rw [hinv.indeg_eq v]
      omega
    have h1i : 1 ≤ indeg v := by
      rw [hinv.indeg_eq v]
      exact hold
    have hcpos : 1 ≤ countOcc v (adjOf wf nid) := by
      have : (1 : Int) ≤ (countOcc v (adjOf wf nid) : Int) := le_trans h1i hle
      exact_mod_cast this
    exact hvx (hconv v (countOcc_pos_mem hcpos) h1i hle)

theorem KInv.toFinal {V : Type} {wf : Workflow V} {indeg : String → Int}
    {ordered : List String} (hinv : KInv wf [] indeg ordered) :
    KFinal wf ordered :=
  ⟨by simpa using hinv.nodup, hinv.sub_ord, hinv.ord_before,
   fun v hv ho => hinv.pending_pos v hv ho (List.not_mem_nil v)⟩

/-- Master lemma: from any invariant state with enough fuel, the loop ends
in a `KFinal` order. -/
theorem kahnLoop_final {V : Type} (wf : Workflow V) :
    ∀ (fuel : Nat) (q : List String) (indeg : String → Int) (ordered : List String),
    KInv wf q indeg ordered →
    q.length + sumToNat (nodeIds wf.nodes) indeg ≤ fuel →
    KFinal wf (kahnLoop (adjOf wf) fuel q indeg ordered)
  | 0, q, indeg, ordered, hinv, hfuel => by
    have hq : q = [] := by
      refine List.length_eq_zero.mp ?_
      omega
    subst hq
    exact hinv.toFinal
  | fuel + 1, [], indeg, ordered, hinv, _ => by
    have hred : kahnLoop (adjOf wf) (fuel + 1) [] indeg ordered = ordered := rfl
    rw [hred]
    exact hinv.toFinal
  | fuel + 1, nid :: rest, indeg, ordered, hinv, hfuel => by
    have hred : kahnLoop (adjOf wf) (fuel + 1) (nid :: rest) indeg ordered
        = kahnLoop (adjOf wf) fuel (processAdj (adjOf wf nid) (indeg, rest)).2
            (processAdj (adjOf wf nid) (indeg, rest)).1 (ordered ++ [nid]) := rfl
    rw [hred]
    have hstep := KInv_step wf nid rest indeg ordered hinv
    have hpot := processAdj_pot (adjOf wf nid) indeg rest (nodeIds wf.nodes)
      (nodeIds_nodup _) (adjOf_subset wf nid)
    refine kahnLoop_final wf fuel _ _ _ hstep ?_
    simp only [List.length_cons] at hfuel
    omega

/-- The order computed by `topo_sort`'s loop satisfies the final
invariant: `kahnFuel` is always enough fuel. -/
theorem kahnOrder_final {V : Type} (wf : Workflow V) : KFinal wf (kahnOrder wf) := by
  have h1 : (seeds wf).length ≤ wf.nodes.length := by
    calc (seeds wf).length ≤ (nodeIds wf.nodes).length := List.length_filter_le _ _
      _ ≤ (wf.nodes.map Node.id).length := dedupFrom_length_le [] _
      _ = wf.nodes.length := List.length_map _ _
  have h2 : sumToNat (nodeIds wf.nodes) (indeg0 wf) ≤ wf.links.length := by
    rw [sumToNat_indeg0]
    exact List.length_filter_le _ _
  exact kahnLoop_final wf (kahnFuel wf) (seeds wf) (indeg0 wf) [] (KInv_init wf)
    (by unfold kahnFuel; omega)

/-! ### C5: the resolver is total and never raises -/

/-- C5: `resolve_input` is total over all inputs: it returns `none` when the
dependency map has no entry for `(node_id, port)`; it returns `none` when
the mapped producer node has no captured outputs (including a producer id
absent from the graph); and when the producer's captured outputs exist it
returns exactly the lookup of the mapped port there — the value when
present, `none` otherwise.  No case raises. -/
theorem resolve_input_total_behavior {V : Type} (n p : String) (m : InputMap)
    (ctx : ExecutionContext V) :
    (m n p = none → resolve_input n p m ctx = none) ∧
    (∀ src, m n p = some src → lookup src.from_node ctx.outputs = none →
      resolve_input n p m ctx = none) ∧
    (∀ src ports, m n p = some src → lookup src.from_node ctx.outputs = some ports →
      resolve_input n p m ctx = lookup src.from_port ports) := by
  refine ⟨fun h => ?_, fun src h h2 => ?_, fun src ports h h2 => ?_⟩
  · simp [resolve_input, h]
  · simp [resolve_input, h, h2]
  · simp [resolve_input, h, h2]

/-- C5 witness: a bound port resolves to the captured value; an unbound
port resolves to `none`. -/
theorem resolve_input_total_behavior_witness :
    resolve_input "b" "i" (build_input_map [exLinkAB])
      ({ outputs := [("a", [("o", 7)])] } : ExecutionContext Nat) = some 7 ∧
    resolve_input "b" "zz" (build_input_map [exLinkAB])
      ({ outputs := [("a", [("o", 7)])] } : ExecutionContext Nat) = none := by
  constructor
  · exact ((resolve_input_total_behavior "b" "i" (build_input_map [exLinkAB])
      ({ outputs := [("a", [("o", 7)])] } : ExecutionContext Nat)).2.2
      ⟨"a", "o"⟩ [("o", 7)] rfl rfl).trans rfl
  · exact (resolve_input_total_behavior "b" "zz" (build_input_map [exLinkAB])
      ({ outputs := [("a", [("o", 7)])] } : ExecutionContext Nat)).1 rfl

/-! ### C9: determinism -/

/-- C9: execution is deterministic — on the same graph, two runs whose
handler registries behave identically produce identical results: the same
scheduled order, the same log entries with the same step numbers, and, on
success, the same outputs and logs. -/
theorem execute_workflow_deterministic {V : Type} (reg1 reg2 : Registry V)
    (wf : Workflow V) (h : ∀ t, reg1 t = reg2 t) :
    execute_workflow reg1 wf = execute_workflow reg2 wf ∧
    run_workflow_api reg1 wf = run_workflow_api reg2 wf := by
  have hreg : reg1 = reg2 := funext h
  subst hreg
  exact ⟨rfl, rfl⟩

/-- C9 witness: two syntactically distinct registries with the same
behavior give the same result on a concrete graph. -/
theorem execute_workflow_deterministic_witness :
    execute_workflow exReg ⟨[exA, exB], [exLinkAB]⟩ =
      execute_workflow exRegCopy ⟨[exA, exB], [exLinkAB]⟩ :=
  (execute_workflow_deterministic exReg exRegCopy _ (fun _ => rfl)).1

/-! ### C2: cycle / short order means GraphError before anything runs -/

/-- When the length check fails, `execute_workflow` raises `topo_sort`'s
error with the freshly created (empty) context, for every registry. -/
theorem short_order_aux {V : Type} (reg : Registry V) (wf : Workflow V)
    (h : ¬ ((kahnOrder wf).length = wf.nodes.length)) :
    execute_workflow reg wf =
      .error (graphErrorMsg, { outputs := [], logs := [], step := 0 }) ∧
    run_workflow_api reg wf = .error graphErrorMsg :=
  ⟨by simp [execute_workflow, topo_sort, h],
   by simp [run_workflow_api, execute_workflow, topo_sort, h]⟩

/-- C2: whenever the scheduler's computed order is shorter than the node
count (as happens for any cycle among valid edges), `execute_workflow`
fails with the scheduler's `GraphError` for every handler registry
whatsoever — so no handler is consulted — and the abandoned context holds
zero log entries and zero captured outputs; the caller sees only the
message. -/
theorem execute_workflow_graph_error_on_short_order {V : Type} (reg : Registry V)
    (wf : Workflow V) (h : (kahnOrder wf).length < wf.nodes.length) :
    execute_workflow reg wf =
      .error (graphErrorMsg, { outputs := [], logs := [], step := 0 }) ∧
    run_workflow_api reg wf = .error graphErrorMsg :=
  short_order_aux reg wf (Nat.ne_of_lt h)

/-- C2 witness: the two-node cycle `a → b`, `b → a` yields the
`GraphError` with empty logs and outputs. -/
theorem execute_workflow_graph_error_witness :
    execute_workflow exReg ⟨[exA, exB], [exLinkAB, exLinkBA]⟩ =
      .error (graphErrorMsg, { outputs := [], logs := [], step := 0 }) :=
  (execute_workflow_graph_error_on_short_order exReg _ (by decide)).1

/-! ### C4: last declared link wins on a port binding -/

/-- `find?` skips a prefix in which nothing satisfies the predicate. -/
theorem find?_append_none {α : Type} (p : α → Bool) (xs ys : List α)
    (h : ∀ x ∈ xs, p x = false) : (xs ++ ys).find? p = ys.find? p := by
  induction xs with
  | nil => rfl
  | cons a t ih =>
    have ha := h a (List.mem_cons_self a t)
    simp only [List.cons_append, List.find?, ha]
    exact ih (fun x hx => h x (List.mem_cons_of_mem a hx))

/-- `find?` on a cons whose head satisfies the predicate. -/
theorem find?_cons_true {α : Type} (pred : α → Bool) (a : α) (l : List α)
    (h : pred a = true) : (a :: l).find? pred = some a := by
  simp [List.find?, h]

/-- `find?` on a cons whose head fails the predicate. -/
theorem find?_cons_false {α : Type} (pred : α → Bool) (a : α) (l : List α)
    (h : pred a = false) : (a :: l).find? pred = l.find? pred := by
  simp [List.find?, h]

/-- The dependency map holds, for each `(to_node, to_port)` key, exactly
the last link declared for it. -/
theorem build_input_map_eq_find (links : List PortLink) (t p : String) :
    build_input_map links t p =
      (links.reverse.find? (fun l => decide (l.to_node = t ∧ l.to_port = p))).map
        (fun l => ⟨l.from_node, l.from_port⟩) := by
  induction links using List.reverseRecOn with
  | nil => rfl
  | append_singleton init a ih =>
    have hstep : build_input_map (init ++ [a]) t p =
        if t = a.to_node ∧ p = a.to_port then some ⟨a.from_node, a.from_port⟩
        else build_input_map init t p := by
      unfold build_input_map
      rw [List.foldl_append]
      rfl
    rw [hstep]
    have hshape : (init ++ [a]).reverse = a :: init.reverse := by simp
    rw [hshape]
    by_cases hc : a.to_node = t ∧ a.to_port = p
    · rw [if_pos ⟨hc.1.symm, hc.2.symm⟩, find?_cons_true _ _ _ (by simpa using hc)]
      rfl
    · rw [if_neg (fun hx => hc ⟨hx.1.symm, hx.2.symm⟩),
        find?_cons_false _ _ _ (by simpa using hc)]
      exact ih

/-- C4: when two links are declared for the same `(to_node, to_port)` and
the second is the last one for that key, the dependency map keeps only the
later-declared link, and the resolver consequently reads the value captured
at the later link's `(from_node, from_port)`. -/
theorem input_map_last_declared_wins {V : Type} (links pre mid post : List PortLink)
    (l1 l2 : PortLink) (hlinks : links = pre ++ l1 :: (mid ++ l2 :: post))
    (_ht : l1.to_node = l2.to_node) (_hp : l1.to_port = l2.to_port)
    (hpost : ∀ l ∈ post, ¬(l.to_node = l2.to_node ∧ l.to_port = l2.to_port)) :
    build_input_map links l2.to_node l2.to_port = some ⟨l2.from_node, l2.from_port⟩ ∧
    ∀ ctx : ExecutionContext V,
      resolve_input l2.to_node l2.to_port (build_input_map links) ctx =
        outputValue ctx l2.from_node l2.from_port := by
  have hmap : build_input_map links l2.to_node l2.to_port =
      some ⟨l2.from_node, l2.from_port⟩ := by
    rw [build_input_map_eq_find, hlinks]
    have hshape : (pre ++ l1 :: (mid ++ l2 :: post)).reverse =
        post.reverse ++ l2 :: (mid.reverse ++ l1 :: pre.reverse) := by
      simp [List.reverse_append, List.reverse_cons, List.append_assoc]
    rw [hshape]
    rw [find?_append_none _ post.reverse _ (fun x hx => by
      have hxp : x ∈ post := List.mem_reverse.mp hx
      exact decide_eq_false (hpost x hxp))]
    simp [List.find?]
  refine ⟨hmap, fun ctx => ?_⟩
  unfold resolve_input outputValue
  rw [hmap]

/-! ### C1: acyclic graphs are fully and consistently ordered -/

/-- On an acyclic graph the loop schedules every declared id: otherwise the
set of never-scheduled ids would carry an infinite backwards chain inside a
finite set, i.e. a cycle. -/
theorem kahnOrder_complete {V : Type} (wf : Workflow V) (hac : Acyclic wf) :
    ∀ v ∈ nodeIds wf.nodes, v ∈ kahnOrder wf := by
  by_contra hc
  push_neg at hc
  obtain ⟨v0, hv0ids, hv0no⟩ := hc
  have hstep : ∀ v, v ∈ nodeIds wf.nodes ∧ v ∉ kahnOrder wf →
      ∃ u, (u ∈ nodeIds wf.nodes ∧ u ∉ kahnOrder wf) ∧ EdgeRel wf u v := by
    rintro v ⟨hv1, hv2⟩
    have h1 := (kahnOrder_final wf).missing_pos v hv1 hv2
    unfold remIndeg at h1
    have hne : (validLinks wf).filter
        (fun l => decide (l.to_node = v ∧ l.from_node ∉ kahnOrder wf)) ≠ [] := by
      intro he
      rw [he] at h1
      simp at h1
    obtain ⟨l, hl⟩ := List.exists_mem_of_ne_nil _ hne
    have h2 := List.mem_filter.mp hl
    have h3 := of_decide_eq_true h2.2
    exact ⟨l.from_node, ⟨(validLinks_mem_ids wf l h2.1).1, h3.2⟩,
      l, h2.1, rfl, h3.1⟩
  choose g hg using hstep
  let c : Nat → {x // x ∈ nodeIds wf.nodes ∧ x ∉ kahnOrder wf} := fun n =>
    Nat.rec ⟨v0, hv0ids, hv0no⟩ (fun _ p => ⟨g p.1 p.2, (hg p.1 p.2).1⟩) n
  have hedge : ∀ n, EdgeRel wf (c (n + 1)).1 (c n).1 :=
    fun n => (hg (c n).1 (c n).2).2
  have hchain : ∀ i d, Relation.TransGen (EdgeRel wf) (c (i + d + 1)).1 (c i).1 := by
    intro i d
    induction d with
    | zero => exact Relation.TransGen.single (hedge i)
    | succ d ih => exact Relation.TransGen.head (hedge (i + d + 1)) ih
  have hmaps : ∀ n ∈ Finset.range ((nodeIds wf.nodes).toFinset.card + 1),
      (c n).1 ∈ (nodeIds wf.nodes).toFinset := by
    intro n _
    exact List.mem_toFinset.mpr (c n).2.1
  have hcard : (nodeIds wf.nodes).toFinset.card
      < (Finset.range ((nodeIds wf.nodes).toFinset.card + 1)).card := by
    simp
  obtain ⟨i, hi, j, hj, hij, hcij⟩ :=
    Finset.exists_ne_map_eq_of_card_lt_of_maps_to hcard hmaps
  rcases Nat.lt_or_ge i j with hlt | hge
  · obtain ⟨d, rfl⟩ : ∃ d, j = i + d + 1 := ⟨j - i - 1, by omega⟩
    have ht := hchain i d
    rw [hcij] at ht
    exact hac _ ht
  · have hlt2 : j < i := by omega
    obtain ⟨d, rfl⟩ : ∃ d, i = j + d + 1 := ⟨i - j - 1, by omega⟩
    have ht := hchain j d
    rw [← hcij] at ht
    exact hac _ ht

/-- Looking up a declared id in `nodes_by_id` finds a node carrying that
id. -/
theorem nodeById_id {V : Type} (nodes : List (Node V)) (x : String)
    (hx : x ∈ nodes.map Node.id) :
    ∃ n, nodeById nodes x = some n ∧ n.id = x := by
  unfold nodeById
  rcases hfind : nodes.reverse.find? (fun n => decide (n.id = x)) with _ | n
  · exfalso
    rw [List.find?_eq_none] at hfind
    obtain ⟨n, hn, hid⟩ := List.mem_map.mp hx
    exact hfind n (List.mem_reverse.mpr hn) (by simp [hid])
  · have h2 := List.find?_some hfind
    simp only [decide_eq_true_eq] at h2
    exact ⟨n, hfind, h2⟩

/-- Mapping the scheduled ids through `nodes_by_id` and back is the
identity. -/
theorem filterMap_nodeById {V : Type} (nodes : List (Node V)) :
    ∀ xs : List String, (∀ x ∈ xs, x ∈ nodes.map Node.id) →
    (xs.filterMap (fun nid => nodeById nodes nid)).map Node.id = xs
  | [], _ => rfl
  | x :: xs, h => by
    obtain ⟨n, hn, hid⟩ := nodeById_id nodes x (h x (by simp))
    simp only [List.filterMap_cons, hn, List.map_cons, hid]
    rw [filterMap_nodeById nodes xs (fun y hy => h y (List.mem_cons_of_mem x hy))]

/-- When the length check passes, `topo_sort` returns the scheduled
nodes. -/
theorem topo_sort_ok_of_length {V : Type} (wf : Workflow V)
    (h : (kahnOrder wf).length = wf.nodes.length) :
    topo_sort wf =
      .ok ((kahnOrder wf).filterMap (fun nid => nodeById wf.nodes nid)) := by
  unfold topo_sort
  rw [if_pos h]

/-- A successful `topo_sort` returns nodes whose id sequence is exactly the
loop's order (hence without repetition). -/
theorem topo_sort_ok_map_id {V : Type} (wf : Workflow V) (ns : List (Node V))
    (h : topo_sort wf = .ok ns) :
    ns.map Node.id = kahnOrder wf ∧ (ns.map Node.id).Nodup := by
  unfold topo_sort at h
  by_cases hlen : (kahnOrder wf).length = wf.nodes.length
  · rw [if_pos hlen] at h
    injection h with h2
    have hsub : ∀ x ∈ kahnOrder wf, x ∈ wf.nodes.map Node.id := by
      intro x hx
      exact mem_nodeIds.mp ((kahnOrder_final wf).sub x hx)
    rw [← h2, filterMap_nodeById wf.nodes _ hsub]
    exact ⟨rfl, (kahnOrder_final wf).nodup⟩
  · rw [if_neg hlen] at h
    exact absurd h (by simp)

/-- The loop's order never repeats an id and stays within the distinct
declared ids. -/
theorem kahnOrder_length_le_ids {V : Type} (wf : Workflow V) :
    (kahnOrder wf).length ≤ (nodeIds wf.nodes).length :=
  List.Subperm.length_le
    ((kahnOrder_final wf).nodup.subperm
      (fun v hv => (kahnOrder_final wf).sub v hv))

/-- C1: on a graph with unique node ids whose valid edges form no cycle,
`topo_sort` succeeds and its order is a valid linearization: for every
valid edge, the source id appears strictly before the target id in the
returned order (whose ids are pairwise distinct, so positions are
unambiguous). -/
theorem topo_sort_acyclic_linearizes {V : Type} (wf : Workflow V)
    (hu : (wf.nodes.map Node.id).Nodup) (hac : Acyclic wf) :
    ∃ ns, topo_sort wf = .ok ns ∧ (ns.map Node.id).Nodup ∧
      ∀ l ∈ validLinks wf, Before (ns.map Node.id) l.from_node l.to_node := by
  have hids : nodeIds wf.nodes = wf.nodes.map Node.id := nodeIds_eq_of_nodup hu
  have hcomp := kahnOrder_complete wf hac
  have hlen : (kahnOrder wf).length = wf.nodes.length := by
    have h1 := kahnOrder_length_le_ids wf
    have h2 : (nodeIds wf.nodes).length ≤ (kahnOrder wf).length :=
      List.Subperm.length_le ((nodeIds_nodup _).subperm (fun v hv => hcomp v hv))
    have h3 : (nodeIds wf.nodes).length = wf.nodes.length := by
      rw [hids]
      exact List.length_map _ _
    omega
  have hap := topo_sort_ok_map_id wf _ (topo_sort_ok_of_length wf hlen)
  refine ⟨_, topo_sort_ok_of_length wf hlen, hap.2, ?_⟩
  intro l hl
  rw [hap.1]
  refine (kahnOrder_final wf).linearizes l hl ?_
  exact hcomp l.to_node (validLinks_mem_ids wf l hl).2

/-- C1 witness: the two-node pipeline `a → b` is acyclic; the scheduler
orders `a` before `b`. -/
theorem topo_sort_acyclic_linearizes_witness :
    ∃ ns, topo_sort (⟨[exA, exB], [exLinkAB]⟩ : Workflow Nat) = .ok ns ∧
      (ns.map Node.id).Nodup ∧
      ∀ l ∈ validLinks (⟨[exA, exB], [exLinkAB]⟩ : Workflow Nat),
        Before (ns.map Node.id) l.from_node l.to_node := by
  refine topo_sort_acyclic_linearizes _ (by decide) ?_
  have hval : validLinks (⟨[exA, exB], [exLinkAB]⟩ : Workflow Nat) = [exLinkAB] := rfl
  have hedge : ∀ a b, EdgeRel (⟨[exA, exB], [exLinkAB]⟩ : Workflow Nat) a b →
      a = "a" ∧ b = "b" := by
    rintro a b ⟨l, hl, hfrom, hto⟩
    rw [hval] at hl
    have he := List.mem_singleton.mp hl
    subst he
    exact ⟨hfrom.symm, hto.symm⟩
  intro x hx
  cases hx with
  | single h1 =>
    obtain ⟨ha, hb⟩ := hedge _ _ h1
    rw [ha] at hb
    exact absurd hb (by decide)
  | tail h1 h2 =>
    obtain ⟨hb1, hx1⟩ := hedge _ _ h2
    cases h1 with
    | single h3 =>
      obtain ⟨hx2, hb2⟩ := hedge _ _ h3
      rw [hx1] at hx2
      exact absurd hx2 (by decide)
    | tail h4 h5 =>
      obtain ⟨hc, hb2⟩ := hedge _ _ h5
      rw [hb1] at hb2
      exact absurd hb2 (by decide)

/-! ### C3: declaration-order tie-break for in-degree-zero nodes -/

/-- A node with no valid in-edges never appears in an adjacency list. -/
theorem not_mem_adjOf_of_indeg0 {V : Type} (wf : Workflow V) (v : String)
    (h0 : indeg0 wf v = 0) (nid : String) : v ∉ adjOf wf nid := by
  intro hv
  unfold adjOf at hv
  obtain ⟨l, hl, hto⟩ := List.mem_map.mp hv
  have h1 := List.mem_filter.mp hl
  unfold indeg0 at h0
  rw [Int.natCast_eq_zero, List.length_eq_zero] at h0
  have h2 : l ∈ (validLinks wf).filter (fun l => decide (l.to_node = v)) :=
    List.mem_filter.mpr ⟨h1.1, by simp [hto]⟩
  rw [h0] at h2
  exact absurd h2 (List.not_mem_nil l)

/-- One `while` iteration preserves `TieState` for a pair of nodes with no
valid in-edges. -/
theorem tie_step {V : Type} (wf : Workflow V) (u v nid : String)
    (rest : List String) (indeg : String → Int) (ordered : List String)
    (hinv : KInv wf (nid :: rest) indeg ordered)
    (hu0 : indeg0 wf u = 0) (hv0 : indeg0 wf v = 0) (huv : ¬ u = v)
    (hts : TieState u v (nid :: rest) ordered) :
    TieState u v (processAdj (adjOf wf nid) (indeg, rest)).2 (ordered ++ [nid]) := by
  obtain ⟨extra, hq2, -, hmem, -⟩ := processAdj_snd (adjOf wf nid) indeg rest
  have hux : u ∉ extra := fun h => not_mem_adjOf_of_indeg0 wf u hu0 nid (hmem u h).1
  have hvx : v ∉ extra := fun h => not_mem_adjOf_of_indeg0 wf v hv0 nid (hmem v h).1
  have hnr : nid ∉ rest := by
    have h := (List.nodup_append.mp hinv.nodup).2.1
    exact (List.nodup_cons.mp h).1
  rcases hts with ⟨hbq, huo, hvo⟩ | ⟨huo, hvq, hvo⟩ | hb
  · rcases before_cons hbq with ⟨he, hvt⟩ | hbt
    · refine Or.inr (Or.inl ⟨?_, ?_, ?_⟩)
      · exact List.mem_append.mpr (Or.inr (by simp [he]))
      · rw [hq2]
        exact List.mem_append.mpr (Or.inl hvt)
      · intro hmem2
        rcases List.mem_append.mp hmem2 with h | h
        · exact hvo h
        · rw [List.mem_singleton.mp h, ← he] at huv
          exact huv rfl
    · refine Or.inl ⟨?_, ?_, ?_⟩
      · rw [hq2]
        exact hbt.append_right
      · intro hmem2
        rcases List.mem_append.mp hmem2 with h | h
        · exact huo h
        · exact hnr (by rw [← List.mem_singleton.mp h]; exact hbt.mem_left)
      · intro hmem2
        rcases List.mem_append.mp hmem2 with h | h
        · exact hvo h
        · exact hnr (by rw [← List.mem_singleton.mp h]; exact hbt.mem_right)
  · by_cases hnv : nid = v
    · refine Or.inr (Or.inr ?_)
      rw [← hnv]
      exact Before.mk_append huo
    · refine Or.inr (Or.inl ⟨List.mem_append.mpr (Or.inl huo), ?_, ?_⟩)
      · rw [hq2]
        refine List.mem_append.mpr (Or.inl ?_)
        rcases List.mem_cons.mp hvq with h | h
        · exact absurd h.symm hnv
        · exact h
      · intro hmem2
        rcases List.mem_append.mp hmem2 with h | h
        · exact hvo h
        · exact hnv (List.mem_singleton.mp h).symm
  · exact Or.inr (Or.inr hb.append_right)

/-- Master tie-break lemma: with enough fuel, a `TieState` pair ends up in
the final order with `u` before `v`. -/
theorem kahnLoop_tie {V : Type} (wf : Workflow V) (u v : String)
    (hu0 : indeg0 wf u = 0) (hv0 : indeg0 wf v = 0) (huv : ¬ u = v) :
    ∀ (fuel : Nat) (q : List String) (indeg : String → Int) (ordered : List String),
    KInv wf q indeg ordered →
    q.length + sumToNat (nodeIds wf.nodes) indeg ≤ fuel →
    TieState u v q ordered →
    Before (kahnLoop (adjOf wf) fuel q indeg ordered) u v
  | 0, q, indeg, ordered, _, hfuel, hts => by
    have hq : q = [] := by
      refine List.length_eq_zero.mp ?_
      omega
    subst hq
    rcases hts with ⟨hbq, -, -⟩ | ⟨-, hvq, -⟩ | hb
    · exact absurd hbq.mem_left (List.not_mem_nil u)
    · exact absurd hvq (List.not_mem_nil v)
    · exact hb
  | fuel + 1, [], indeg, ordered, _, _, hts => by
    have hred : kahnLoop (adjOf wf) (fuel + 1) [] indeg ordered = ordered := rfl
    rw [hred]
    rcases hts with ⟨hbq, -, -⟩ | ⟨-, hvq, -⟩ | hb
    · exact absurd hbq.mem_left (List.not_mem_nil u)
    · exact absurd hvq (List.not_mem_nil v)
    · exact hb
  | fuel + 1, nid :: rest, indeg, ordered, hinv, hfuel, hts => by
    have hred : kahnLoop (adjOf wf) (fuel + 1) (nid :: rest) indeg ordered
        = kahnLoop (adjOf wf) fuel (processAdj (adjOf wf nid) (indeg, rest)).2
            (processAdj (adjOf wf nid) (indeg, rest)).1 (ordered ++ [nid]) := rfl
    rw [hred]
    have hstep := KInv_step wf nid rest indeg ordered hinv
    have htie := tie_step wf u v nid rest indeg ordered hinv hu0 hv0 huv hts
    have hpot := processAdj_pot (adjOf wf nid) indeg rest (nodeIds wf.nodes)
      (nodeIds_nodup _) (adjOf_subset wf nid)
    refine kahnLoop_tie wf u v hu0 hv0 huv fuel _ _ _ hstep ?_ htie
    simp only [List.length_cons] at hfuel
    omega

/-- C3: the scheduler breaks ties among simultaneously-ready nodes by
declaration order.  For two declared nodes of in-degree zero (in
particular, two independent roots with no edge between them), the one
declared first appears strictly before the other in the computed order:
the ready queue is seeded in declaration order and consumed FIFO. -/
theorem kahn_declaration_order_tiebreak {V : Type} (wf : Workflow V)
    (hu : (wf.nodes.map Node.id).Nodup) (u v : String)
    (hbefore : Before (wf.nodes.map Node.id) u v)
    (hu0 : indeg0 wf u = 0) (hv0 : indeg0 wf v = 0) :
    Before (kahnOrder wf) u v := by
  have huv : ¬ u = v := hbefore.ne hu
  have hids : nodeIds wf.nodes = wf.nodes.map Node.id := nodeIds_eq_of_nodup hu
  have hseed : Before (seeds wf) u v := by
    unfold seeds
    rw [hids]
    exact hbefore.filter _ (by simp [hu0]) (by simp [hv0])
  have h1 : (seeds wf).length ≤ wf.nodes.length := by
    calc (seeds wf).length ≤ (nodeIds wf.nodes).length := List.length_filter_le _ _
      _ ≤ (wf.nodes.map Node.id).length := dedupFrom_length_le [] _
      _ = wf.nodes.length := List.length_map _ _
  have h2 : sumToNat (nodeIds wf.nodes) (indeg0 wf) ≤ wf.links.length := by
    rw [sumToNat_indeg0]
    exact List.length_filter_le _ _
  exact kahnLoop_tie wf u v hu0 hv0 huv (kahnFuel wf) (seeds wf) (indeg0 wf) []
    (KInv_init wf) (by unfold kahnFuel; omega)
    (Or.inl ⟨hseed, List.not_mem_nil u, List.not_mem_nil v⟩)

/-- C3 witness: two independent roots; the first declared is scheduled
first. -/
theorem kahn_declaration_order_tiebreak_witness :
    Before (kahnOrder (⟨[exA, exB], []⟩ : Workflow Nat)) "a" "b" :=
  kahn_declaration_order_tiebreak (⟨[exA, exB], []⟩ : Workflow Nat) (by decide)
    "a" "b" ⟨[], [], [], rfl⟩ (by decide) (by decide)

/-! ### C6: dangling links are invisible to the scheduler, visible to the
resolver -/

/-- Beyond the needed potential, the exact fuel is irrelevant. -/
theorem kahnLoop_pot_eq {V : Type} (wf : Workflow V) :
    ∀ (fuel1 fuel2 : Nat) (q : List String) (indeg : String → Int)
      (ordered : List String),
    q.length + sumToNat (nodeIds wf.nodes) indeg ≤ fuel1 →
    q.length + sumToNat (nodeIds wf.nodes) indeg ≤ fuel2 →
    kahnLoop (adjOf wf) fuel1 q indeg ordered
      = kahnLoop (adjOf wf) fuel2 q indeg ordered
  | 0, fuel2, q, indeg, ordered, h1, _ => by
    have hq : q = [] := List.length_eq_zero.mp (by omega)
    subst hq
    cases fuel2 with
    | zero => rfl
    | succ f => rfl
  | fuel1 + 1, 0, q, indeg, ordered, _, h2 => by
    have hq : q = [] := List.length_eq_zero.mp (by omega)
    subst hq
    rfl
  | _ + 1, _ + 1, [], _, _, _, _ => rfl
  | fuel1 + 1, fuel2 + 1, nid :: rest, indeg, ordered, h1, h2 => by
    have hpot := processAdj_pot (adjOf wf nid) indeg rest (nodeIds wf.nodes)
      (nodeIds_nodup _) (adjOf_subset wf nid)
    have hred1 : kahnLoop (adjOf wf) (fuel1 + 1) (nid :: rest) indeg ordered
        = kahnLoop (adjOf wf) fuel1 (processAdj (adjOf wf nid) (indeg, rest)).2
            (processAdj (adjOf wf nid) (indeg, rest)).1 (ordered ++ [nid]) := rfl
    have hred2 : kahnLoop (adjOf wf) (fuel2 + 1) (nid :: rest) indeg ordered
        = kahnLoop (adjOf wf) fuel2 (processAdj (adjOf wf nid) (indeg, rest)).2
            (processAdj (adjOf wf nid) (indeg, rest)).1 (ordered ++ [nid]) := rfl
    rw [hred1, hred2]
    refine kahnLoop_pot_eq wf fuel1 fuel2 _ _ _ ?_ ?_ <;>
      simp only [List.length_cons] at h1 h2 <;> omega

/-- Dropping a never-satisfying element in the middle leaves a filter
unchanged. -/
theorem filter_middle_false {α : Type} (p : α → Bool) (pre post : List α)
    (a : α) (h : p a = false) :
    (pre ++ a :: post).filter p = (pre ++ post).filter p := by
  simp [List.filter_append, List.filter_cons, h]

/-- C6: a link with an undeclared endpoint contributes no edge and no
in-degree — removing it changes neither the valid edge list, nor the
computed order, nor `topo_sort`'s outcome — yet the very same link is still
recorded in the dependency map (here: it is the last link for its key) and
the resolver consults it. -/
theorem dangling_link_excluded_kept {V : Type} (wf : Workflow V)
    (pre post : List PortLink) (l : PortLink)
    (hlinks : wf.links = pre ++ l :: post)
    (hinvalid : ¬ (l.from_node ∈ wf.nodes.map Node.id ∧
      l.to_node ∈ wf.nodes.map Node.id))
    (hlast : ∀ l2 ∈ post, ¬ (l2.to_node = l.to_node ∧ l2.to_port = l.to_port)) :
    validLinks wf = validLinks ⟨wf.nodes, pre ++ post⟩ ∧
    kahnOrder wf = kahnOrder ⟨wf.nodes, pre ++ post⟩ ∧
    topo_sort wf = topo_sort ⟨wf.nodes, pre ++ post⟩ ∧
    build_input_map wf.links l.to_node l.to_port
      = some ⟨l.from_node, l.from_port⟩ ∧
    ∀ ctx : ExecutionContext V,
      resolve_input l.to_node l.to_port (build_input_map wf.links) ctx =
        outputValue ctx l.from_node l.from_port := by
  have hval : validLinks wf = validLinks ⟨wf.nodes, pre ++ post⟩ := by
    unfold validLinks
    rw [hlinks]
    exact filter_middle_false _ pre post l (decide_eq_false hinvalid)
  have hadj : adjOf wf = adjOf ⟨wf.nodes, pre ++ post⟩ := by
    funext x
    unfold adjOf
    rw [hval]
  have hind : indeg0 wf = indeg0 ⟨wf.nodes, pre ++ post⟩ := by
    funext x
    unfold indeg0
    rw [hval]
  have hseeds : seeds wf = seeds ⟨wf.nodes, pre ++ post⟩ := by
    unfold seeds
    rw [hind]
  have hkfeq : kahnFuel (⟨wf.nodes, pre ++ post⟩ : Workflow V)
      = wf.nodes.length + (pre ++ post).length := rfl
  have h1 : (seeds (⟨wf.nodes, pre ++ post⟩ : Workflow V)).length
      ≤ wf.nodes.length := by
    calc (seeds (⟨wf.nodes, pre ++ post⟩ : Workflow V)).length
        ≤ (nodeIds wf.nodes).length := List.length_filter_le _ _
      _ ≤ (wf.nodes.map Node.id).length := dedupFrom_length_le [] _
      _ = wf.nodes.length := List.length_map _ _
  have h2 : sumToNat (nodeIds wf.nodes)
      (indeg0 (⟨wf.nodes, pre ++ post⟩ : Workflow V))
      ≤ (pre ++ post).length := by
    have h3 : sumToNat (nodeIds wf.nodes)
        (indeg0 (⟨wf.nodes, pre ++ post⟩ : Workflow V))
        = (validLinks (⟨wf.nodes, pre ++ post⟩ : Workflow V)).length :=
      sumToNat_indeg0 _
    rw [h3]
    exact List.length_filter_le _ _
  have hpot : (seeds (⟨wf.nodes, pre ++ post⟩ : Workflow V)).length
      + sumToNat (nodeIds wf.nodes)
          (indeg0 (⟨wf.nodes, pre ++ post⟩ : Workflow V))
      ≤ kahnFuel (⟨wf.nodes, pre ++ post⟩ : Workflow V) := by
    rw [hkfeq]
    omega
  have hkahn : kahnOrder wf = kahnOrder ⟨wf.nodes, pre ++ post⟩ := by
    unfold kahnOrder
    rw [hadj, hind, hseeds]
    have hf : kahnFuel (⟨wf.nodes, pre ++ post⟩ : Workflow V) ≤ kahnFuel wf := by
      rw [hkfeq]
      unfold kahnFuel
      rw [hlinks]
      simp only [List.length_append, List.length_cons]
      omega
    exact kahnLoop_pot_eq (⟨wf.nodes, pre ++ post⟩ : Workflow V) (kahnFuel wf)
      (kahnFuel (⟨wf.nodes, pre ++ post⟩ : Workflow V)) _ _ _
      (le_trans hpot hf) hpot
  have htopo : topo_sort wf = topo_sort ⟨wf.nodes, pre ++ post⟩ := by
    unfold topo_sort
    rw [hkahn]
  have hmap : build_input_map wf.links l.to_node l.to_port
      = some ⟨l.from_node, l.from_port⟩ := by
    rw [build_input_map_eq_find, hlinks]
    have hshape : (pre ++ l :: post).reverse = post.reverse ++ l :: pre.reverse := by
      simp [List.reverse_append]
    rw [hshape, find?_append_none _ post.reverse _ (fun x hx =>
      decide_eq_false (hlast x (List.mem_reverse.mp hx)))]
    simp [List.find?]
  refine ⟨hval, hkahn, htopo, hmap, fun ctx => ?_⟩
  unfold resolve_input outputValue
  rw [hmap]

/-- C6 witness: a link from undeclared `"zz"` into `("b", "j")` leaves the
order of the graph `a → b` untouched but is recorded in the map. -/
theorem dangling_link_excluded_kept_witness :
    kahnOrder (⟨[exA, exB], [⟨"zz", "o", "b", "j"⟩, exLinkAB]⟩ : Workflow Nat)
      = kahnOrder (⟨[exA, exB], [exLinkAB]⟩ : Workflow Nat) ∧
    build_input_map [⟨"zz", "o", "b", "j"⟩, exLinkAB] "b" "j"
      = some ⟨"zz", "o"⟩ := by
  have h := dangling_link_excluded_kept
    (⟨[exA, exB], [⟨"zz", "o", "b", "j"⟩, exLinkAB]⟩ : Workflow Nat)
    [] [exLinkAB] ⟨"zz", "o", "b", "j"⟩ rfl (by decide) (by decide)
  exact ⟨h.2.1, h.2.2.2.1⟩

/-! ### Executor-loop lemmas (for C7 and C8) -/

theorem lookup_dictInsert_ne {α : Type} (k j : String) (v : α) :
    ∀ (m : List (String × α)), ¬ k = j → lookup k (dictInsert j v m) = lookup k m
  | [], h => by
    simp only [dictInsert, lookup]
    rw [if_neg h]
  | (k', v') :: rest, h => by
    by_cases hj : j = k'
    · subst hj
      simp only [dictInsert, if_pos rfl, lookup]
      rw [if_neg h, if_neg h]
    · simp only [dictInsert, if_neg hj, lookup]
      by_cases hk : k = k'
      · rw [if_pos hk, if_pos hk]
      · rw [if_neg hk, if_neg hk]
        exact lookup_dictInsert_ne k j v rest h

theorem runNodes_cons_none {V : Type} (reg : Registry V) (im : InputMap)
    (node : Node V) (rest : List (Node V)) (ctx : ExecutionContext V)
    (h : reg node.type = none) :
    runNodes reg im (node :: rest) ctx
      = .error (unsupportedMsg node.type, node_log ctx node "running") := by
  simp only [runNodes, h]

theorem runNodes_cons_ok {V : Type} (reg : Registry V) (im : InputMap)
    (node : Node V) (rest : List (Node V)) (ctx : ExecutionContext V)
    (runner : Handler V) (out : List (String × V))
    (h : reg node.type = some runner)
    (h2 : runner node im (node_log ctx node "running") = .ok out) :
    runNodes reg im (node :: rest) ctx
      = runNodes reg im rest
          (node_log
            { node_log ctx node "running" with
              outputs := dictInsert node.id out (node_log ctx node "running").outputs }
            node "done" (some out)) := by
  simp only [runNodes, h, h2]

theorem runNodes_cons_error {V : Type} (reg : Registry V) (im : InputMap)
    (node : Node V) (rest : List (Node V)) (ctx : ExecutionContext V)
    (runner : Handler V) (e : String)
    (h : reg node.type = some runner)
    (h2 : runner node im (node_log ctx node "running") = .error e) :
    runNodes reg im (node :: rest) ctx
      = .error (e, node_log (node_log ctx node "running") node "error" none (some e)) := by
  simp only [runNodes, h, h2]

/-- Processing a successfully completed prefix first, then the rest. -/
theorem runNodes_append {V : Type} (reg : Registry V) (im : InputMap) :
    ∀ (pre rest : List (Node V)) (ctx ctx' : ExecutionContext V),
    runNodes reg im pre ctx = .ok ctx' →
    runNodes reg im (pre ++ rest) ctx = runNodes reg im rest ctx'
  | [], rest, ctx, ctx', h => by
    have h2 : ctx = ctx' := by
      have h3 : (Except.ok ctx :
          Except (String × ExecutionContext V) (ExecutionContext V)) = .ok ctx' := h
      injection h3
    subst h2
    rfl
  | node :: pre', rest, ctx, ctx', h => by
    rcases hreg : reg node.type with _ | runner
    · rw [runNodes_cons_none reg im node pre' ctx hreg] at h
      exact absurd h (by simp)
    · rcases hrun : runner node im (node_log ctx node "running") with e | out
      · rw [runNodes_cons_error reg im node pre' ctx runner e hreg hrun] at h
        exact absurd h (by simp)
      · rw [runNodes_cons_ok reg im node pre' ctx runner out hreg hrun] at h
        rw [List.cons_append,
          runNodes_cons_ok reg im node (pre' ++ rest) ctx runner out hreg hrun]
        exact runNodes_append reg im pre' rest _ ctx' h

/-- Frame lemma for a successful run: logs only grow by entries naming the
processed nodes, and other ids' captured outputs are untouched. -/
theorem runNodes_ok_frame {V : Type} (reg : Registry V) (im : InputMap) :
    ∀ (l : List (Node V)) (ctx ctx' : ExecutionContext V),
    runNodes reg im l ctx = .ok ctx' →
    (∃ new, ctx'.logs = ctx.logs ++ new ∧ ∀ e ∈ new, e.node ∈ l.map Node.id) ∧
    ∀ k, k ∉ l.map Node.id → lookup k ctx'.outputs = lookup k ctx.outputs
  | [], ctx, ctx', h => by
    have h2 : ctx = ctx' := by
      have h3 : (Except.ok ctx :
          Except (String × ExecutionContext V) (ExecutionContext V)) = .ok ctx' := h
      injection h3
    subst h2
    exact ⟨⟨[], by simp, by simp⟩, fun k _ => rfl⟩
  | node :: rest, ctx, ctx', h => by
    rcases hreg : reg node.type with _ | runner
    · rw [runNodes_cons_none reg im node rest ctx hreg] at h
      exact absurd h (by simp)
    · rcases hrun : runner node im (node_log ctx node "running") with e | out
      · rw [runNodes_cons_error reg im node rest ctx runner e hreg hrun] at h
        exact absurd h (by simp)
      · rw [runNodes_cons_ok reg im node rest ctx runner out hreg hrun] at h
        obtain ⟨⟨new, hlogs, hmem⟩, houts⟩ := runNodes_ok_frame reg im rest _ ctx' h
        constructor
        · refine ⟨⟨ctx.step + 1, node.id, node.type, "running", none, none⟩ ::
            ⟨ctx.step + 2, node.id, node.type, "done", some out, none⟩ :: new, ?_, ?_⟩
          · rw [hlogs]
            simp [node_log]
          · intro e he
            rcases List.mem_cons.mp he with rfl | he
            · simp
            · rcases List.mem_cons.mp he with rfl | he
              · simp
              · exact List.mem_cons_of_mem _ (hmem e he)
        · intro k hk
          have hk1 : ¬ k = node.id := fun he => hk (by rw [he]; simp)
          have hk2 : k ∉ rest.map Node.id := fun he => hk (by simp [he])
          rw [houts k hk2]
          exact lookup_dictInsert_ne k node.id out ctx.outputs hk1

/-! ### C7: an unregistered node type aborts after a lone "running" entry -/

/-- C7: when execution reaches a node whose type has no registered handler
(all earlier scheduled nodes having completed), the run aborts carrying the
"unsupported node" message; the abandoned context's log ends with a lone
"running" entry for that node, that entry is the only one naming the node
(no "done"/"error" follows), the node's outputs are never captured, and the
caller receives only the message — no result bundle. -/
theorem unsupported_type_aborts {V : Type} (reg : Registry V) (wf : Workflow V)
    (ns pre post : List (Node V)) (bad : Node V) (ctx : ExecutionContext V)
    (hord : topo_sort wf = .ok ns) (hns : ns = pre ++ bad :: post)
    (hpre : runNodes reg (build_input_map wf.links) pre {} = .ok ctx)
    (hbad : reg bad.type = none) :
    execute_workflow reg wf
      = .error (unsupportedMsg bad.type, node_log ctx bad "running") ∧
    (node_log ctx bad "running").logs
      = ctx.logs ++ [⟨ctx.step + 1, bad.id, bad.type, "running", none, none⟩] ∧
    (node_log ctx bad "running").logs.filter (fun e => decide (e.node = bad.id))
      = [⟨ctx.step + 1, bad.id, bad.type, "running", none, none⟩] ∧
    lookup bad.id (node_log ctx bad "running").outputs = none ∧
    run_workflow_api reg wf = .error (unsupportedMsg bad.type) := by
  obtain ⟨⟨new, hlogs0, hmemnew⟩, houts0⟩ :=
    runNodes_ok_frame reg (build_input_map wf.links) pre {} ctx hpre
  have hctxlogs : ctx.logs = new := by simpa using hlogs0
  have hnodup : (ns.map Node.id).Nodup := (topo_sort_ok_map_id wf ns hord).2
  have hbadpre : bad.id ∉ pre.map Node.id := by
    rw [hns] at hnodup
    simp only [List.map_append, List.map_cons] at hnodup
    have hd := (List.nodup_append.mp hnodup).2.2
    intro h
    exact hd h (by simp)
  have hmain : execute_workflow reg wf
      = .error (unsupportedMsg bad.type, node_log ctx bad "running") := by
    simp only [execute_workflow, hord]
    rw [hns, runNodes_append reg _ pre (bad :: post) _ ctx hpre,
      runNodes_cons_none _ _ _ _ _ hbad]
  have hlogrun : (node_log ctx bad "running").logs
      = ctx.logs ++ [⟨ctx.step + 1, bad.id, bad.type, "running", none, none⟩] := by
    simp [node_log]
  refine ⟨hmain, hlogrun, ?_, ?_, ?_⟩
  · rw [hlogrun, List.filter_append]
    have hnone : ctx.logs.filter (fun e => decide (e.node = bad.id)) = [] := by
      rw [List.filter_eq_nil_iff]
      intro e he
      have h1 : e.node ∈ pre.map Node.id := hmemnew e (hctxlogs ▸ he)
      simp only [decide_eq_true_eq]
      intro h2
      exact hbadpre (h2 ▸ h1)
    rw [hnone]
    simp
  · have h1 : lookup bad.id ctx.outputs
        = lookup bad.id ({} : ExecutionContext V).outputs := houts0 bad.id hbadpre
    exact h1
  · simp only [run_workflow_api, hmain]

/-! ### C8: a failing handler is fail-fast -/

/-- C8: when a scheduled node's handler fails (all earlier scheduled nodes
having completed), the run aborts at once: the abandoned context's log ends
with the node's "running" entry followed by its "error" entry carrying the
message, the failing node's outputs are not captured, no node scheduled
after it is ever logged, and the caller receives only the single message —
no result bundle. -/
theorem handler_failure_fail_fast {V : Type} (reg : Registry V) (wf : Workflow V)
    (ns pre post : List (Node V)) (f : Node V) (ctx : ExecutionContext V)
    (handler : Handler V) (msg : String)
    (hord : topo_sort wf = .ok ns) (hns : ns = pre ++ f :: post)
    (hpre : runNodes reg (build_input_map wf.links) pre {} = .ok ctx)
    (hreg : reg f.type = some handler)
    (hfail : handler f (build_input_map wf.links) (node_log ctx f "running")
      = .error msg) :
    execute_workflow reg wf
      = .error (msg, node_log (node_log ctx f "running") f "error" none (some msg)) ∧
    (node_log (node_log ctx f "running") f "error" none (some msg)).logs
      = ctx.logs ++ [⟨ctx.step + 1, f.id, f.type, "running", none, none⟩,
                     ⟨ctx.step + 2, f.id, f.type, "error", none, some msg⟩] ∧
    lookup f.id
      (node_log (node_log ctx f "running") f "error" none (some msg)).outputs
      = none ∧
    (∀ n ∈ post, ∀ e ∈
      (node_log (node_log ctx f "running") f "error" none (some msg)).logs,
      ¬ e.node = n.id) ∧
    run_workflow_api reg wf = .error msg := by
  obtain ⟨⟨new, hlogs0, hmemnew⟩, houts0⟩ :=
    runNodes_ok_frame reg (build_input_map wf.links) pre {} ctx hpre
  have hctxlogs : ctx.logs = new := by simpa using hlogs0
  have hnodup : (ns.map Node.id).Nodup := (topo_sort_ok_map_id wf ns hord).2
  rw [hns] at hnodup
  simp only [List.map_append, List.map_cons] at hnodup
  obtain ⟨hnp, hnf, hdisj⟩ := List.nodup_append.mp hnodup
  have hfpre : f.id ∉ pre.map Node.id := fun h => hdisj h (by simp)
  have hfpost : f.id ∉ post.map Node.id := (List.nodup_cons.mp hnf).1
  have hmain : execute_workflow reg wf
      = .error (msg, node_log (node_log ctx f "running") f "error" none (some msg)) := by
    simp only [execute_workflow, hord]
    rw [hns, runNodes_append reg _ pre (f :: post) _ ctx hpre,
      runNodes_cons_error _ _ _ _ _ _ _ hreg hfail]
  have hloge : (node_log (node_log ctx f "running") f "error" none (some msg)).logs
      = ctx.logs ++ [⟨ctx.step + 1, f.id, f.type, "running", none, none⟩,
                     ⟨ctx.step + 2, f.id, f.type, "error", none, some msg⟩] := by
    simp [node_log]
  refine ⟨hmain, hloge, ?_, ?_, ?_⟩
  · exact houts0 f.id hfpre
  · intro n hn e he h2
    have hnid : n.id ∈ post.map Node.id := List.mem_map.mpr ⟨n, hn, rfl⟩
    rw [hloge] at he
    rcases List.mem_append.mp he with he | he
    · have h1 : e.node ∈ pre.map Node.id := hmemnew e (hctxlogs ▸ he)
      exact hdisj (h2 ▸ h1) (List.mem_cons_of_mem _ hnid)
    · rcases List.mem_cons.mp he with rfl | he
      · exact hfpost (by rw [← h2] at hnid; simpa using hnid)
      · rcases List.mem_cons.mp he with rfl | he
        · exact hfpost (by rw [← h2] at hnid; simpa using hnid)
        · exact absurd he (List.not_mem_nil e)
  · simp only [run_workflow_api, hmain]

/-- C7 witness: with `c : "U"` unregistered in the middle of the schedule,
the run aborts after the lone "running" entry for `c`. -/
theorem unsupported_type_aborts_witness :
    execute_workflow exReg ⟨[exA, exC, exB], [exLinkAB]⟩
      = .error (unsupportedMsg "U", node_log exCtxPre exC "running") ∧
    (node_log exCtxPre exC "running").logs.filter (fun e => decide (e.node = "c"))
      = [⟨3, "c", "U", "running", none, none⟩] := by
  have h := unsupported_type_aborts exReg ⟨[exA, exC, exB], [exLinkAB]⟩
    [exA, exC, exB] [exA] [exB] exC exCtxPre rfl rfl rfl rfl
  exact ⟨h.1, h.2.2.1⟩

/-- C8 witness: with `c : "U"` whose handler fails with `"boom"`, the run
aborts with the running/error pair for `c` and no outputs for `c`. -/
theorem handler_failure_fail_fast_witness :
    execute_workflow exRegFail ⟨[exA, exC, exB], [exLinkAB]⟩
      = .error ("boom",
          node_log (node_log exCtxPre exC "running") exC "error" none (some "boom")) ∧
    lookup "c"
      (node_log (node_log exCtxPre exC "running") exC "error" none
        (some "boom")).outputs = none := by
  have h := handler_failure_fail_fast exRegFail ⟨[exA, exC, exB], [exLinkAB]⟩
    [exA, exC, exB] [exA] [exB] exC exCtxPre (fun _ _ _ => .error "boom") "boom"
    rfl rfl rfl rfl rfl
  exact ⟨h.1, h.2.2.1⟩

/-! ### C10: duplicate node ids always trip the length check -/

/-- C10: with two declared nodes sharing an id, the scheduler's id-keyed
maps deduplicate, the order over distinct ids is necessarily shorter than
the declared node count, and `execute_workflow` fails with the scheduler's
`GraphError` for every registry — before any handler runs and before any
log entry is appended — regardless of whether the links form a cycle. -/
theorem duplicate_ids_graph_error {V : Type} (reg : Registry V) (wf : Workflow V)
    (h : ¬ (wf.nodes.map Node.id).Nodup) :
    execute_workflow reg wf =
      .error (graphErrorMsg, { outputs := [], logs := [], step := 0 }) ∧
    run_workflow_api reg wf = .error graphErrorMsg := by
  have hlt : (kahnOrder wf).length < wf.nodes.length := by
    have h1 := kahnOrder_length_le_ids wf
    have h2 : (nodeIds wf.nodes).length < (wf.nodes.map Node.id).length :=
      dedupFrom_length_lt_of_not_nodup [] _ h
    have h3 : (wf.nodes.map Node.id).length = wf.nodes.length :=
      List.length_map _ _
    omega
  exact short_order_aux reg wf (Nat.ne_of_lt hlt)

/-- C10 witness: declaring `"a"` twice (plus `"b"`, acyclic links) yields
the `GraphError` with the pristine context. -/
theorem duplicate_ids_graph_error_witness :
    execute_workflow exReg ⟨[exA, exA, exB], [exLinkAB]⟩ =
      .error (graphErrorMsg, { outputs := [], logs := [], step := 0 }) :=
  (duplicate_ids_graph_error exReg ⟨[exA, exA, exB], [exLinkAB]⟩ (by decide)).1

/-- C4 witness: of two links into `("b", "i")`, the later one (from node
`"y"`) wins, and the resolver returns the value captured at `y.p2`. -/
theorem input_map_last_declared_wins_witness :
    build_input_map [⟨"x", "p1", "b", "i"⟩, ⟨"y", "p2", "b", "i"⟩] "b" "i" =
      some ⟨"y", "p2"⟩ ∧
    resolve_input "b" "i"
      (build_input_map [⟨"x", "p1", "b", "i"⟩, ⟨"y", "p2", "b", "i"⟩])
      ({ outputs := [("y", [("p2", 9)])] } : ExecutionContext Nat) = some 9 := by
  have h := input_map_last_declared_wins (V := Nat)
    [⟨"x", "p1", "b", "i"⟩, ⟨"y", "p2", "b", "i"⟩] [] [] []
    ⟨"x", "p1", "b", "i"⟩ ⟨"y", "p2", "b", "i"⟩ rfl rfl rfl
    (fun l hl => absurd hl (List.not_mem_nil l))
  exact ⟨h.1, (h.2 _).trans rfl⟩

end VideoNodo
